import Mathlib

/-! # go-file-cleaner: a shallow embedding of `main.go`

The program walks a directory tree, buckets the `.mp4` files it meets by size, and, after a bulk
confirmation, hashes every bucket of more than one file, groups the files of the bucket by digest
and asks file by file whether the second, third, ... member of a digest group is to be deleted.

Everything the program does to the outside world is recorded as a list of `Event`s.  The outside
world is an `Env`: the outcome of every library call the program makes (opening, hashing, stat-ing
and removing a path, walking a directory, ranging over a Go map) as a function of its arguments,
and a list of pending answers on standard input.  A `World` gives an `Env` for every list of paths
removed so far; it is used where two runs on the same files are compared.
-/

namespace FileCleaner

/-! ## Data model -/

/-- A Go `map[K][]string`, as the list of its entries.  Every map the program builds has pairwise
distinct keys (`KeysNodup`).  The order of the list carries no meaning for the program: ranging
over a map goes through `Env.rangeSize` and `Env.rangeHash`. -/
abbrev GoMap (κ : Type) := List (κ × List String)

/-- The `sizeMap` of `main`: `map[int64][]string`. -/
abbrev SizeMap := GoMap Int

/-- The `hashMap` of `deleteDuplicates`: `map[string][]string`. -/
abbrev HashMap := GoMap String

/-- The value of `m[k]`: the slice stored under `k`, the nil slice when `k` is absent. -/
def mapGet {κ : Type} [DecidableEq κ] : GoMap κ → κ → List String
  | [], _ => []
  | (k', vs) :: rest, k => if k' = k then vs else mapGet rest k

/-- The statement `m[k] = append(m[k], v)`. -/
def mapAppend {κ : Type} [DecidableEq κ] : GoMap κ → κ → String → GoMap κ
  | [], k, v => [(k, [v])]
  | (k', vs) :: rest, k, v =>
    if k' = k then (k', vs ++ [v]) :: rest else (k', vs) :: mapAppend rest k v

/-- The keys of a map are pairwise distinct. -/
def KeysNodup {κ : Type} (m : GoMap κ) : Prop := (m.map Prod.fst).Nodup

/-- All the paths held by a size map, bucket after bucket. -/
def allPaths (sizeMap : SizeMap) : List String := (sizeMap.map Prod.snd).flatten

/-- Two's-complement wrap-around of `int64` arithmetic. -/
def wrap64 (x : Int) : Int := (x + 2 ^ 63) % 2 ^ 64 - 2 ^ 63

/-- The part of an `os.FileInfo` the program reads: `Name()`, `IsDir()`, `Size()`. -/
structure FileInfo where
  name : String
  isDir : Bool
  size : Int
deriving DecidableEq, Repr

/-- One call that `filepath.Walk` makes to its callback: either a path with its `FileInfo` and a
nil error, or a path with the error met on it. -/
inductive WalkStep where
  | visit (path : String) (info : FileInfo)
  | failed (path : String) (err : String)
deriving DecidableEq, Repr

/-- The three `range` statements over the size map. -/
inductive Site where
  | table
  | saved
  | delete
deriving DecidableEq, Repr

deriving instance DecidableEq for Except

/-- What the program does to the outside world, in the order it does it.  A prompt and the
`fmt.Scanln` that reads its answer are one event, carrying the value `Scanln` stored. -/
inductive Event where
  /-- The prompt for a directory path and the answer read. -/
  | askDir (answer : String)
  /-- The line `No directory path provided. Exiting.` -/
  | noDir
  /-- A call of `time.Sleep`. -/
  | sleep (seconds : Nat)
  /-- The line `Error accessing path ...` printed by the walk callback. -/
  | errAccess (path err : String)
  /-- The line `Error walking the path ...`. -/
  | errWalk (dir err : String)
  /-- The line `MP4 files with the same size:`. -/
  | reportHeader
  /-- The header line of the table. -/
  | tableHeader
  /-- A line of 65 dashes. -/
  | tableRule
  /-- A row of the table. -/
  | tableRow (size : Int) (file : String)
  /-- The line `Total space that can be saved by deleting duplicates: ...`. -/
  | total (bytes : Int)
  /-- The bulk prompt `Do you want to delete duplicate MP4 files ...` and the answer read. -/
  | askBulk (answer : String)
  /-- The line `Press Enter to exit...` and the final `Scanln`. -/
  | pressEnter
  /-- The line `Processing files of size ...`. -/
  | processing (size : Int)
  /-- A call of `getFileHash` and what it returned. -/
  | hash (file : String) (result : Except String String)
  /-- The line `Error hashing file ...`. -/
  | errHash (file err : String)
  /-- The line `Duplicate files with hash ...`. -/
  | dupHeader (hash : String)
  /-- The line `Keeping: ...`. -/
  | keeping (file : String)
  /-- The prompt `Do you want to delete: ...` of a file and the answer read. -/
  | askDelete (file answer : String)
  /-- A call of `os.Remove` and the error it returned. -/
  | remove (file : String) (err : Option String)
  /-- The line `Error deleting file ...`. -/
  | errDelete (file err : String)
  /-- The line `Deleted: ...`. -/
  | deleted (file : String)
  /-- The line `Skipped: ...`. -/
  | skipped (file : String)
deriving DecidableEq

/-- The outside world as one run meets it: the outcome of each library call as a function of its
arguments.  In a run on a size map that holds no path twice every path is hashed at most once and
passed to `os.Remove` at most once, so that the outcomes the run meets are such a function.  What
a removal does to the calls that come after it (a removed file, or a symbolic link to it, can no
longer be opened) is the matter of `World`. -/
structure Env where
  /-- The error `os.Open` returns for a path, `none` when the file opens. -/
  osOpen : String → Option String
  /-- For an opened path, `io.Copy` into a fresh `md5.New()` followed by `Sum(nil)`: the read
  error, or the bytes of the sum. -/
  md5Copy : String → Except String (List Nat)
  /-- The call `os.Stat` followed by `Size()`. -/
  osStat : String → Except String Int
  /-- The error `os.Remove` returns for a path, `none` when the file is removed. -/
  osRemove : String → Option String
  /-- The calls `filepath.Walk` makes to a callback that keeps returning nil, in order. -/
  walk : String → List WalkStep
  /-- The order in which a `range` over the size map visits its entries, per statement. -/
  rangeSize : Site → SizeMap → SizeMap
  /-- The order in which the `range` over the hash map of the bucket of a given size visits its
  entries. -/
  rangeHash : Int → HashMap → HashMap

/-- A `range` over a map visits every entry exactly once. -/
def Env.Fair (env : Env) : Prop :=
  (∀ site m, (env.rangeSize site m).Perm m) ∧ (∀ size m, (env.rangeHash size m).Perm m)

/-- A call `fmt.Scanln(&v)` on a fresh string variable: standard input is the list of the values
the successive calls store, and a call at the end of input leaves the variable empty. -/
def scanln : List String → String × List String
  | [] => ("", [])
  | answer :: rest => (answer, rest)

/-! ## The functions of `main.go` -/

/-- The function `filepath.Ext`, on characters: the suffix starting at the last dot of the last
element of the path (the scan runs from the end of the string, so `acc` is what it has passed). -/
def extLoop : List Char → List Char → List Char
  | [], _ => []
  | c :: before, acc =>
    if c = '/' then [] else if c = '.' then c :: acc else extLoop before (c :: acc)

/-- The function `filepath.Ext`. -/
def filepathExt (path : String) : String := String.mk (extLoop path.data.reverse [])

/-- The function `strings.ToLower`, on the ASCII letters. -/
def stringsToLower (s : String) : String := String.mk (s.data.map Char.toLower)

/-- The test of the walk callback: `!info.IsDir() && strings.ToLower(filepath.Ext(info.Name())) == ".mp4"`. -/
def isMp4 (info : FileInfo) : Bool :=
  !info.isDir && decide (stringsToLower (filepathExt info.name) = ".mp4")

/-- The callback `main` hands to `filepath.Walk`: the new size map, what it prints and the error
it returns. -/
def walkFn (sizeMap : SizeMap) : WalkStep → SizeMap × List Event × Option String
  | .failed path err => (sizeMap, [Event.errAccess path err], some err)
  | .visit path info =>
    if isMp4 info then (mapAppend sizeMap info.size path, [], none) else (sizeMap, [], none)

/-- The function `filepath.Walk`: the callback is called on one step after the other, and the
first error it returns ends the walk and is returned. -/
def filepathWalk {σ : Type} (fn : σ → WalkStep → σ × List Event × Option String) :
    List WalkStep → σ → σ × List Event × Option String
  | [], s => (s, [], none)
  | step :: rest, s =>
    let r := fn s step
    match r.2.2 with
    | some err => (r.1, r.2.1, some err)
    | none =>
      let r' := filepathWalk fn rest r.1
      (r'.1, r.2.1 ++ r'.2.1, r'.2.2)

/-- Insertion of a size into an ascending list. -/
def insertSorted (x : Int) : List Int → List Int
  | [] => [x]
  | y :: ys => if x < y then x :: y :: ys else y :: insertSorted x ys

/-- The call `sort.Slice(sizes, ...)` with the order `<`. -/
def sortSizes : List Int → List Int
  | [] => []
  | x :: xs => insertSorted x (sortSizes xs)

/-- The function `printDuplicatesInTable`. -/
def printDuplicatesInTable (env : Env) (sizeMap : SizeMap) : List Event :=
  let sizes := sortSizes ((env.rangeSize Site.table sizeMap).map Prod.fst)
  [Event.tableHeader, Event.tableRule] ++
    (sizes.map fun size =>
      let files := mapGet sizeMap size
      if files.length > 1 then files.map (Event.tableRow size) ++ [Event.tableRule] else []).flatten

/-- The function `getFileSize`. -/
def getFileSize (env : Env) (filePath : String) : Int :=
  match env.osStat filePath with
  | .error _ => 0
  | .ok size => size

/-- The loop of `calculatePotentialSpaceSaved` over the entries of the size map, in the order
they are visited; `total` is `totalSavedSpace`. -/
def savedLoop (env : Env) : List (Int × List String) → Int → Int
  | [], total => total
  | (_, files) :: rest, total =>
    if h : files.length > 1 then
      savedLoop env rest
        (wrap64 (total + wrap64 (wrap64 ((files.length : Int) - 1) * getFileSize env files[0])))
    else savedLoop env rest total

/-- The function `calculatePotentialSpaceSaved`. -/
def calculatePotentialSpaceSaved (env : Env) (sizeMap : SizeMap) : Int :=
  savedLoop env (env.rangeSize Site.saved sizeMap) 0

/-- The lower-case hexadecimal digit of a number below 16. -/
def hexDigit (n : Nat) : Char := if n < 10 then Char.ofNat (48 + n) else Char.ofNat (87 + n)

/-- The call `fmt.Sprintf("%x", sum)` on a byte slice. -/
def sprintfHex (sum : List Nat) : String :=
  String.mk (sum.map fun b => [hexDigit (b / 16 % 16), hexDigit (b % 16)]).flatten

/-- The function `getFileHash`. -/
def getFileHash (env : Env) (filePath : String) : Except String String :=
  match env.osOpen filePath with
  | some err => .error err
  | none =>
    match env.md5Copy filePath with
    | .error err => .error err
    | .ok sum => .ok (sprintfHex sum)

/-- The first inner loop of `deleteDuplicates`: every file of the bucket is hashed and, unless
hashing fails, appended to the hash map under its digest. -/
def hashFiles (env : Env) : List String → HashMap → List Event × HashMap
  | [], hashMap => ([], hashMap)
  | file :: rest, hashMap =>
    match getFileHash env file with
    | .error err =>
      let r := hashFiles env rest hashMap
      (Event.hash file (.error err) :: Event.errHash file err :: r.1, r.2)
    | .ok hash =>
      let r := hashFiles env rest (mapAppend hashMap hash file)
      (Event.hash file (.ok hash) :: r.1, r.2)

/-- The loop `for i, file := range duplicates` of `deleteDuplicates`, from index `i` on. -/
def deleteLoop (env : Env) : Nat → List String → List String → List Event × List String
  | _, [], stdin => ([], stdin)
  | i, file :: rest, stdin =>
    if i = 0 then
      let r := deleteLoop env (i + 1) rest stdin
      (Event.keeping file :: r.1, r.2)
    else
      let a := scanln stdin
      let deleteChoice := a.1
      if deleteChoice = "y" ∨ deleteChoice = "Y" then
        match env.osRemove file with
        | some err =>
          let r := deleteLoop env (i + 1) rest a.2
          (Event.askDelete file deleteChoice :: Event.remove file (some err) ::
            Event.errDelete file err :: r.1, r.2)
        | none =>
          let r := deleteLoop env (i + 1) rest a.2
          (Event.askDelete file deleteChoice :: Event.remove file none ::
            Event.deleted file :: r.1, r.2)
      else
        let r := deleteLoop env (i + 1) rest a.2
        (Event.askDelete file deleteChoice :: Event.skipped file :: r.1, r.2)

/-- The loop `for hash, duplicates := range hashMap` of `deleteDuplicates`, over the entries in
the order they are visited. -/
def groupsLoop (env : Env) : List (String × List String) → List String → List Event × List String
  | [], stdin => ([], stdin)
  | (hash, duplicates) :: rest, stdin =>
    if duplicates.length > 1 then
      let r := deleteLoop env 0 duplicates stdin
      let r' := groupsLoop env rest r.2
      (Event.dupHeader hash :: r.1 ++ r'.1, r'.2)
    else groupsLoop env rest stdin

/-- The loop `for size, files := range sizeMap` of `deleteDuplicates`, over the entries in the
order they are visited. -/
def bucketsLoop (env : Env) : List (Int × List String) → List String → List Event × List String
  | [], stdin => ([], stdin)
  | (size, files) :: rest, stdin =>
    if files.length > 1 then
      let h := hashFiles env files []
      let r := groupsLoop env (env.rangeHash size h.2) stdin
      let r' := bucketsLoop env rest r.2
      (Event.processing size :: h.1 ++ r.1 ++ r'.1, r'.2)
    else bucketsLoop env rest stdin

/-- The function `deleteDuplicates`: what it does and what is left on standard input. -/
def deleteDuplicates (env : Env) (sizeMap : SizeMap) (stdin : List String) :
    List Event × List String :=
  bucketsLoop env (env.rangeSize Site.delete sizeMap) stdin

/-- The function `main`, run with the command line `args` (the program name first) and the
pending answers `stdin`. -/
def main (env : Env) (args : List String) (stdin : List String) : List Event × List String :=
  let d : String × List Event × List String :=
    if h : args.length < 2 then
      let a := scanln stdin
      (a.1, [Event.askDir a.1], a.2)
    else (args[1], [], stdin)
  let dirPath := d.1
  if dirPath = "" then (d.2.1 ++ [Event.noDir, Event.sleep 3], d.2.2)
  else
    let w := filepathWalk walkFn (env.walk dirPath) []
    match w.2.2 with
    | some err => (d.2.1 ++ w.2.1 ++ [Event.errWalk dirPath err, Event.sleep 3], d.2.2)
    | none =>
      let sizeMap := w.1
      let table := printDuplicatesInTable env sizeMap
      let totalSavedSpace := calculatePotentialSpaceSaved env sizeMap
      let c := scanln d.2.2
      let choice := c.1
      let del : List Event × List String :=
        if choice = "y" ∨ choice = "Y" then deleteDuplicates env sizeMap c.2 else ([], c.2)
      (d.2.1 ++ w.2.1 ++ [Event.reportHeader] ++ table ++
        [Event.total totalSavedSpace, Event.askBulk choice] ++ del.1 ++ [Event.pressEnter],
        (scanln del.2).2)

/-! ## The deletion step in a world that removals change -/

/-- A world that the removals of the run change: the outcomes of the library calls once the
given paths have been removed, the latest first.  A removed file cannot be opened again, and
neither can a symbolic link to it. -/
abbrev World := List String → Env

/-- The loop `for i, file := range duplicates` of `deleteDuplicates` in a world that removals
change, from index `i` on; `gone` holds the paths removed so far.  It returns what it does, what
is left on standard input and the paths removed so far. -/
def deleteLoopIn (w : World) :
    Nat → List String → List String → List String → List Event × List String × List String
  | _, [], stdin, gone => ([], stdin, gone)
  | i, file :: rest, stdin, gone =>
    if i = 0 then
      let r := deleteLoopIn w (i + 1) rest stdin gone
      (Event.keeping file :: r.1, r.2)
    else
      let a := scanln stdin
      let deleteChoice := a.1
      if deleteChoice = "y" ∨ deleteChoice = "Y" then
        match (w gone).osRemove file with
        | some err =>
          let r := deleteLoopIn w (i + 1) rest a.2 gone
          (Event.askDelete file deleteChoice :: Event.remove file (some err) ::
            Event.errDelete file err :: r.1, r.2)
        | none =>
          let r := deleteLoopIn w (i + 1) rest a.2 (file :: gone)
          (Event.askDelete file deleteChoice :: Event.remove file none ::
            Event.deleted file :: r.1, r.2)
      else
        let r := deleteLoopIn w (i + 1) rest a.2 gone
        (Event.askDelete file deleteChoice :: Event.skipped file :: r.1, r.2)

/-- The loop `for hash, duplicates := range hashMap` of `deleteDuplicates` in a world that
removals change. -/
def groupsLoopIn (w : World) :
    List (String × List String) → List String → List String →
      List Event × List String × List String
  | [], stdin, gone => ([], stdin, gone)
  | (hash, duplicates) :: rest, stdin, gone =>
    if duplicates.length > 1 then
      let r := deleteLoopIn w 0 duplicates stdin gone
      let r' := groupsLoopIn w rest r.2.1 r.2.2
      (Event.dupHeader hash :: r.1 ++ r'.1, r'.2)
    else groupsLoopIn w rest stdin gone

/-- The loop `for size, files := range sizeMap` of `deleteDuplicates` in a world that removals
change: the files of a bucket are hashed in the world as the removals made so far have left
it. -/
def bucketsLoopIn (w : World) :
    List (Int × List String) → List String → List String →
      List Event × List String × List String
  | [], stdin, gone => ([], stdin, gone)
  | (size, files) :: rest, stdin, gone =>
    if files.length > 1 then
      let h := hashFiles (w gone) files []
      let r := groupsLoopIn w ((w gone).rangeHash size h.2) stdin gone
      let r' := bucketsLoopIn w rest r.2.1 r.2.2
      (Event.processing size :: h.1 ++ r.1 ++ r'.1, r'.2)
    else bucketsLoopIn w rest stdin gone

/-- The function `deleteDuplicates` in a world that removals change. -/
def deleteDuplicatesIn (w : World) (sizeMap : SizeMap) (stdin : List String) :
    List Event × List String × List String :=
  bucketsLoopIn w ((w []).rangeSize Site.delete sizeMap) stdin []

/-! ## Reading a trace -/

/-- The paths passed to `getFileHash`, in order. -/
def hashCalls : List Event → List String
  | [] => []
  | Event.hash file _ :: rest => file :: hashCalls rest
  | _ :: rest => hashCalls rest

/-- The paths passed to `os.Remove`, in order. -/
def removeCalls : List Event → List String
  | [] => []
  | Event.remove file _ :: rest => file :: removeCalls rest
  | _ :: rest => removeCalls rest

/-- The paths `os.Remove` removed, in order. -/
def removedFiles : List Event → List String
  | [] => []
  | Event.remove file none :: rest => file :: removedFiles rest
  | _ :: rest => removedFiles rest

/-- The paths whose own prompt was written, in order. -/
def askedFiles : List Event → List String
  | [] => []
  | Event.askDelete file _ :: rest => file :: askedFiles rest
  | _ :: rest => askedFiles rest

/-- An answer that lets a deletion go ahead. -/
def isYes (answer : String) : Bool := decide (answer = "y" ∨ answer = "Y")

/-- The paths whose own prompt was answered `y` or `Y`, in order. -/
def yesFiles : List Event → List String
  | [] => []
  | Event.askDelete file answer :: rest =>
    if isYes answer then file :: yesFiles rest else yesFiles rest
  | _ :: rest => yesFiles rest

/-- The paths announced as `Keeping`, in order. -/
def keptFiles : List Event → List String
  | [] => []
  | Event.keeping file :: rest => file :: keptFiles rest
  | _ :: rest => keptFiles rest

/-! ## Notions used in the statements -/

/-- The hash map `deleteDuplicates` builds for a bucket. -/
def groupsOf (env : Env) (files : List String) : HashMap := (hashFiles env files []).2

/-- The groups of a bucket in the order `deleteDuplicates` visits them; none for a bucket of at
most one file, which is passed over. -/
def visitedGroups (env : Env) (b : Int × List String) : List (String × List String) :=
  if b.2.length > 1 then env.rangeHash b.1 (groupsOf env b.2) else []

/-- The files after the first of each group, group after group. -/
def groupTails (gs : List (String × List String)) : List String :=
  (gs.map fun g => g.2.tail).flatten

/-- The first file of each group of more than one file. -/
def groupHeads (gs : List (String × List String)) : List String :=
  (gs.map fun g => if g.2.length > 1 then g.2.take 1 else []).flatten

/-- The files `deleteDuplicates` asks about when it visits the buckets in the given order. -/
def promptTargets (env : Env) (bs : List (Int × List String)) : List String :=
  (bs.map fun b => groupTails (visitedGroups env b)).flatten

/-- The files `deleteDuplicates` announces as kept when it visits the buckets in the given
order. -/
def keepTargets (env : Env) (bs : List (Int × List String)) : List String :=
  (bs.map fun b => groupHeads (visitedGroups env b)).flatten

/-- Every call of `os.Remove` follows a prompt answered `y` or `Y` for the same file, and a file
is removed when the call returns no error. -/
def Gated (env : Env) (tr : List Event) : Prop :=
  removeCalls tr = yesFiles tr ∧
    removedFiles tr = (removeCalls tr).filter (fun p => (env.osRemove p).isNone)

/-- The first file of each group that has one. -/
def groupFirsts (gs : List (String × List String)) : List String :=
  (gs.map fun g => g.2.take 1).flatten

/-- The first file of every group `deleteDuplicates` forms when it visits the buckets in the
given order. -/
def firstTargets (env : Env) (bs : List (Int × List String)) : List String :=
  (bs.map fun b => groupFirsts (visitedGroups env b)).flatten

/-- The event is not a per-file prompt with another answer than the given one. -/
def answerIs (answer : String) : Event → Bool
  | Event.askDelete _ a => decide (a = answer)
  | _ => true

/-- Every per-file prompt of the trace got the given answer. -/
def AllAnswered (answer : String) (tr : List Event) : Prop :=
  ∀ e ∈ tr, answerIs answer e = true

/-- The world in which `os.Remove` behaves as `r` says and all else is as in `env`. -/
def Env.withRemove (env : Env) (r : String → Option String) : Env where
  osOpen := env.osOpen
  md5Copy := env.md5Copy
  osStat := env.osStat
  osRemove := r
  walk := env.walk
  rangeSize := env.rangeSize
  rangeHash := env.rangeHash

/-- The steps of a walk that meets no error, from the paths and file infos it meets. -/
def visits (entries : List (String × FileInfo)) : List WalkStep :=
  entries.map fun e => WalkStep.visit e.1 e.2

/-- The size map `main` holds after the walk. -/
def scan (steps : List WalkStep) : SizeMap := (filepathWalk walkFn steps []).1

/-- The path of a step of the walk. -/
def WalkStep.path : WalkStep → String
  | .visit path _ => path
  | .failed path _ => path

/-- The directory `main` scans: the first command-line argument, or the answer to the prompt for
a directory when there is none. -/
def dirPathOf (args stdin : List String) : String :=
  if args.length < 2 then (scanln stdin).1 else args.getD 1 ""

/-- What `main` does before it looks at the directory path. -/
def dirEvents (args stdin : List String) : List Event :=
  if args.length < 2 then [Event.askDir (scanln stdin).1] else []

/-- Standard input after `main` has got its directory path. -/
def afterDir (args stdin : List String) : List String :=
  if args.length < 2 then (scanln stdin).2 else stdin

/-- What `main` does once the walk has ended without an error. -/
def afterWalk (env : Env) (sizeMap : SizeMap) (stdin : List String) : List Event × List String :=
  let c := scanln stdin
  let del : List Event × List String :=
    if c.1 = "y" ∨ c.1 = "Y" then deleteDuplicates env sizeMap c.2 else ([], c.2)
  ([Event.reportHeader] ++ printDuplicatesInTable env sizeMap ++
    [Event.total (calculatePotentialSpaceSaved env sizeMap), Event.askBulk c.1] ++ del.1 ++
    [Event.pressEnter], (scanln del.2).2)

/-- The bulk answers read in a trace, in order. -/
def bulkAnswers : List Event → List String
  | [] => []
  | Event.askBulk a :: rest => a :: bulkAnswers rest
  | _ :: rest => bulkAnswers rest

/-- The event is neither a call of `getFileHash` or `os.Remove` nor a prompt for a deletion. -/
def isQuiet : Event → Bool
  | Event.hash _ _ => false
  | Event.remove _ _ => false
  | Event.askDelete _ _ => false
  | Event.askBulk _ => false
  | _ => true

/-- The sum of the sizes `getFileSize` reports for the files removed in a trace. -/
def removedBytes (env : Env) (tr : List Event) : Int :=
  ((removedFiles tr).map (getFileSize env)).sum

/-- The sum over the buckets of the key times the number of files but one. -/
def bucketSurplus (sizeMap : SizeMap) : Int :=
  (sizeMap.map fun b => ((b.2.length - 1 : Nat) : Int) * b.1).sum

/-- The files named between a `Duplicate files with hash` line and the next such line or the next
`Processing files of size` line: the file announced as kept and the files asked about. -/
def groupMembers : List Event → List String
  | [] => []
  | Event.keeping file :: rest => file :: groupMembers rest
  | Event.askDelete file _ :: rest => file :: groupMembers rest
  | Event.dupHeader _ :: _ => []
  | Event.processing _ :: _ => []
  | _ :: rest => groupMembers rest

/-- The duplicate groups a trace shows: for every `Duplicate files with hash` line the digest it
prints and the files named under it, in order. -/
def announcedGroups : List Event → List (String × List String)
  | [] => []
  | Event.dupHeader hash :: rest => (hash, groupMembers rest) :: announcedGroups rest
  | _ :: rest => announcedGroups rest

/-- No removal changes the outcome of a later hashing of one of the given paths: as long as the
path itself has not been removed, `getFileHash` returns for it what it returns before any
removal. -/
def World.HashStableOn (w : World) (paths : List String) : Prop :=
  ∀ gone p, p ∈ paths → p ∉ gone → getFileHash (w gone) p = getFileHash (w []) p

/-- No call of `os.Remove` in the trace returned an error. -/
def NoRemovalFails (tr : List Event) : Prop := removedFiles tr = removeCalls tr

/-! ## Example worlds -/

/-- The directories of the examples as `filepath.Walk` reports them: `v` holds three `.mp4` files
of size 10, one of them with its own content, a text file and a `.mp4` file of size 20; `w` holds
two identical `.mp4` files and a third of another size; in `locked` the entry `a` cannot be
read. -/
def exWalk (dir : String) : List WalkStep :=
  if dir = "v" then
    [WalkStep.visit "v" ⟨"v", true, 4096⟩,
      WalkStep.visit "v/a.mp4" ⟨"a.mp4", false, 10⟩,
      WalkStep.visit "v/b.MP4" ⟨"b.MP4", false, 10⟩,
      WalkStep.visit "v/c.txt" ⟨"c.txt", false, 10⟩,
      WalkStep.visit "v/d.mp4" ⟨"d.mp4", false, 10⟩,
      WalkStep.visit "v/e.mp4" ⟨"e.mp4", false, 20⟩]
  else if dir = "w" then
    [WalkStep.visit "w" ⟨"w", true, 4096⟩,
      WalkStep.visit "w/a.mp4" ⟨"a.mp4", false, 10⟩,
      WalkStep.visit "w/b.mp4" ⟨"b.mp4", false, 10⟩,
      WalkStep.visit "w/e.mp4" ⟨"e.mp4", false, 20⟩]
  else if dir = "locked" then
    [WalkStep.visit "locked" ⟨"locked", true, 4096⟩,
      WalkStep.failed "locked/a" "permission denied",
      WalkStep.visit "locked/b.mp4" ⟨"b.mp4", false, 10⟩,
      WalkStep.visit "locked/c.mp4" ⟨"c.mp4", false, 10⟩]
  else []

/-- A world for the examples: every path opens except `e`; `d`, `d2` and `v/d.mp4` hash to `02`,
every other path to `01`; the paths `d`, `v/e.mp4` and `w/e.mp4` have size 20, every other path
size 10; every path can be removed; maps are ranged over in the order of their entries. -/
def exEnv : Env where
  osOpen := fun p => if p = "e" then some "permission denied" else none
  md5Copy := fun p => if p = "d" ∨ p = "d2" ∨ p = "v/d.mp4" then .ok [2] else .ok [1]
  osStat := fun p => if p = "d" ∨ p = "v/e.mp4" ∨ p = "w/e.mp4" then .ok 20 else .ok 10
  osRemove := fun _ => none
  walk := exWalk
  rangeSize := fun _ m => m
  rangeHash := fun _ m => m

/-- A size map for the examples: one bucket of three files and one of a single file. -/
def exSizeMap : SizeMap := [(10, ["a", "b", "c"]), (20, ["d"])]

/-- A size map for the examples: a bucket with two hash groups of two files and a bucket with
one. -/
def exSizeMap2 : SizeMap := [(10, ["a", "d", "b", "d2"]), (20, ["c", "f"])]

/-- A directory `d` with two identical files `copy.mp4` and `data.mp4` of 20 bytes and two
symbolic links `l1.mp4` and `l2.mp4` to `data.mp4`; the walk does not follow links and reports
for a link the length of its target, 8. -/
def exDiskWalk : List WalkStep :=
  [WalkStep.visit "d" ⟨"d", true, 4096⟩,
    WalkStep.visit "d/copy.mp4" ⟨"copy.mp4", false, 20⟩,
    WalkStep.visit "d/data.mp4" ⟨"data.mp4", false, 20⟩,
    WalkStep.visit "d/l1.mp4" ⟨"l1.mp4", false, 8⟩,
    WalkStep.visit "d/l2.mp4" ⟨"l2.mp4", false, 8⟩]

/-- The directory `d` once the paths `gone` have been removed: a removed path cannot be opened or
removed again, the links cannot be opened once `data.mp4` is removed, and whatever opens has the
content of `data.mp4`.  The maps are ranged over in the order of their entries, or in the reverse
order when `reversed` is set. -/
def exDisk (reversed : Bool) : World := fun gone =>
  { osOpen := fun p =>
      if p ∈ gone then some "no such file or directory"
      else if (p = "d/l1.mp4" ∨ p = "d/l2.mp4") ∧ "d/data.mp4" ∈ gone then
        some "no such file or directory"
      else none
    md5Copy := fun _ => .ok [1]
    osStat := fun p => if p = "d/l1.mp4" ∨ p = "d/l2.mp4" then .ok 8 else .ok 20
    osRemove := fun p => if p ∈ gone then some "no such file or directory" else none
    walk := fun _ => exDiskWalk
    rangeSize := fun _ m => if reversed then m.reverse else m
    rangeHash := fun _ m => if reversed then m.reverse else m }

/-- A size map for the examples: two buckets of two files of the directory `d`, none of them a
link. -/
def exSizeMap3 : SizeMap :=
  [(20, ["d/copy.mp4", "d/data.mp4"]), (30, ["d/x.mp4", "d/y.mp4"])]

/-! ## Go maps -/

theorem mapGet_mapAppend {κ : Type} [DecidableEq κ] (m : GoMap κ) (k k' : κ) (v : String) :
    mapGet (mapAppend m k v) k' = if k = k' then mapGet m k' ++ [v] else mapGet m k' := by
  induction m with
  | nil =>
    by_cases h : k = k' <;> simp [mapAppend, mapGet, h]
  | cons e rest ih =>
    obtain ⟨k0, vs⟩ := e
    by_cases h0 : k0 = k
    · subst h0
      by_cases h : k0 = k' <;> simp [mapAppend, mapGet, h]
    · by_cases h : k = k'
      · subst h
        simp [mapAppend, mapGet, h0, ih]
      · by_cases h1 : k0 = k'
        · subst h1
          simp [mapAppend, mapGet, h0, h]
        · simp [mapAppend, mapGet, h0, h, h1, ih]

theorem keys_mapAppend {κ : Type} [DecidableEq κ] (m : GoMap κ) (k : κ) (v : String) :
    (mapAppend m k v).map Prod.fst =
      if k ∈ m.map Prod.fst then m.map Prod.fst else m.map Prod.fst ++ [k] := by
  induction m with
  | nil => simp [mapAppend]
  | cons e rest ih =>
    obtain ⟨k0, vs⟩ := e
    by_cases h0 : k0 = k
    · subst h0
      simp [mapAppend]
    · have h0' : ¬ k = k0 := fun h => h0 h.symm
      simp only [mapAppend, h0, if_false, List.map_cons, ih, List.mem_cons, h0', false_or]
      split <;> simp

theorem keysNodup_mapAppend {κ : Type} [DecidableEq κ] (m : GoMap κ) (k : κ) (v : String)
    (h : KeysNodup m) : KeysNodup (mapAppend m k v) := by
  unfold KeysNodup at *
  rw [keys_mapAppend]
  split
  · exact h
  · next hk =>
    rw [List.nodup_append]
    refine ⟨h, List.nodup_singleton k, ?_⟩
    intro a ha hb
    simp at hb
    subst hb
    exact hk ha

theorem mapAppend_ne_nil {κ : Type} [DecidableEq κ] (m : GoMap κ) (k : κ) (v : String)
    (h : ∀ e ∈ m, e.2 ≠ []) : ∀ e ∈ mapAppend m k v, e.2 ≠ [] := by
  induction m with
  | nil => simp [mapAppend]
  | cons e rest ih =>
    obtain ⟨k0, vs⟩ := e
    have hrest : ∀ e ∈ rest, e.2 ≠ [] := fun e he => h e (List.mem_cons_of_mem _ he)
    by_cases h0 : k0 = k
    · subst h0
      intro e he
      simp only [mapAppend, if_true, List.mem_cons] at he
      rcases he with rfl | he
      · simp
      · exact hrest e he
    · intro e he
      simp only [mapAppend, h0, if_false, List.mem_cons] at he
      rcases he with rfl | he
      · exact h _ (List.mem_cons_self _ _)
      · exact ih hrest e he

theorem mapGet_of_mem {κ : Type} [DecidableEq κ] (m : GoMap κ) (k : κ) (vs : List String)
    (hn : KeysNodup m) (h : (k, vs) ∈ m) : mapGet m k = vs := by
  induction m with
  | nil => simp at h
  | cons e rest ih =>
    obtain ⟨k0, vs0⟩ := e
    unfold KeysNodup at hn
    simp only [List.map_cons, List.nodup_cons] at hn
    simp only [List.mem_cons, Prod.mk.injEq] at h
    rcases h with ⟨rfl, rfl⟩ | h
    · simp [mapGet]
    · have hne : k0 ≠ k := by
        rintro rfl
        exact hn.1 (List.mem_map_of_mem Prod.fst h)
      simp only [mapGet, hne, if_false]
      exact ih hn.2 h

theorem mem_of_mapGet_ne_nil {κ : Type} [DecidableEq κ] (m : GoMap κ) (k : κ)
    (h : mapGet m k ≠ []) : (k, mapGet m k) ∈ m := by
  induction m with
  | nil => simp [mapGet] at h
  | cons e rest ih =>
    obtain ⟨k0, vs0⟩ := e
    by_cases h0 : k0 = k
    · subst h0
      simp [mapGet]
    · simp only [mapGet, h0, if_false] at h ⊢
      exact List.mem_cons_of_mem _ (ih h)

/-! ## Reading a trace: concatenation -/

theorem hashCalls_append (a b : List Event) : hashCalls (a ++ b) = hashCalls a ++ hashCalls b := by
  induction a with
  | nil => rfl
  | cons e t ih => cases e <;> simp [hashCalls, ih]

theorem removeCalls_append (a b : List Event) :
    removeCalls (a ++ b) = removeCalls a ++ removeCalls b := by
  induction a with
  | nil => rfl
  | cons e t ih => cases e <;> simp [removeCalls, ih]

theorem removedFiles_append (a b : List Event) :
    removedFiles (a ++ b) = removedFiles a ++ removedFiles b := by
  induction a with
  | nil => rfl
  | cons e t ih =>
    cases e with
    | remove f r => cases r <;> simp [removedFiles, ih]
    | _ => simp [removedFiles, ih]

theorem askedFiles_append (a b : List Event) :
    askedFiles (a ++ b) = askedFiles a ++ askedFiles b := by
  induction a with
  | nil => rfl
  | cons e t ih => cases e <;> simp [askedFiles, ih]

theorem yesFiles_append (a b : List Event) : yesFiles (a ++ b) = yesFiles a ++ yesFiles b := by
  induction a with
  | nil => rfl
  | cons e t ih =>
    cases e with
    | askDelete f ans => by_cases h : isYes ans <;> simp [yesFiles, ih, h]
    | _ => simp [yesFiles, ih]

theorem keptFiles_append (a b : List Event) : keptFiles (a ++ b) = keptFiles a ++ keptFiles b := by
  induction a with
  | nil => rfl
  | cons e t ih => cases e <;> simp [keptFiles, ih]

/-! ## The hashing loop -/

theorem hashFiles_get (env : Env) (files : List String) (m : HashMap) (h : String) :
    mapGet (hashFiles env files m).2 h =
      mapGet m h ++ files.filter (fun p => decide (getFileHash env p = .ok h)) := by
  induction files generalizing m with
  | nil => simp [hashFiles]
  | cons f rest ih =>
    unfold hashFiles
    cases hf : getFileHash env f with
    | error err => simp [ih, List.filter_cons, hf]
    | ok d =>
      simp only [ih, mapGet_mapAppend]
      by_cases hd : d = h
      · subst hd
        simp [List.filter_cons, hf]
      · simp [hd, List.filter_cons, hf]

theorem hashFiles_keysNodup (env : Env) (files : List String) (m : HashMap) (hm : KeysNodup m) :
    KeysNodup (hashFiles env files m).2 := by
  induction files generalizing m with
  | nil => simpa [hashFiles] using hm
  | cons f rest ih =>
    unfold hashFiles
    cases hf : getFileHash env f with
    | error err => exact ih m hm
    | ok d => exact ih _ (keysNodup_mapAppend m d f hm)

theorem hashFiles_ne_nil (env : Env) (files : List String) (m : HashMap)
    (hm : ∀ e ∈ m, e.2 ≠ []) : ∀ e ∈ (hashFiles env files m).2, e.2 ≠ [] := by
  induction files generalizing m with
  | nil => simpa [hashFiles] using hm
  | cons f rest ih =>
    unfold hashFiles
    cases hf : getFileHash env f with
    | error err => exact ih m hm
    | ok d => exact ih _ (mapAppend_ne_nil m d f hm)

theorem groupsOf_keysNodup (env : Env) (files : List String) : KeysNodup (groupsOf env files) :=
  hashFiles_keysNodup env files [] (by simp [KeysNodup])

/-- A group of the hash map of a bucket is the list of the files of the bucket that hash to its
key, in the order of the bucket. -/
theorem groupsOf_mem (env : Env) (files : List String) (h : String) (g : List String)
    (hg : (h, g) ∈ groupsOf env files) :
    g = files.filter (fun p => decide (getFileHash env p = .ok h)) := by
  have := mapGet_of_mem _ h g (groupsOf_keysNodup env files) hg
  rw [← this]
  simp [groupsOf, hashFiles_get, mapGet]

theorem groupsOf_ne_nil (env : Env) (files : List String) (e : String × List String)
    (he : e ∈ groupsOf env files) : e.2 ≠ [] :=
  hashFiles_ne_nil env files [] (by simp) e he

theorem mem_groupsOf (env : Env) (files : List String) (h : String)
    (hne : files.filter (fun p => decide (getFileHash env p = .ok h)) ≠ []) :
    (h, files.filter (fun p => decide (getFileHash env p = .ok h))) ∈ groupsOf env files := by
  have hget : mapGet (groupsOf env files) h =
      files.filter (fun p => decide (getFileHash env p = .ok h)) := by
    simp [groupsOf, hashFiles_get, mapGet]
  have := mem_of_mapGet_ne_nil (groupsOf env files) h (by rw [hget]; exact hne)
  rwa [hget] at this

theorem hashFiles_hashCalls (env : Env) (files : List String) (m : HashMap) :
    hashCalls (hashFiles env files m).1 = files := by
  induction files generalizing m with
  | nil => simp [hashFiles, hashCalls]
  | cons f rest ih =>
    unfold hashFiles
    cases hf : getFileHash env f <;> simp [hashCalls, ih]

theorem hashFiles_quiet (env : Env) (files : List String) (m : HashMap) :
    removeCalls (hashFiles env files m).1 = [] ∧ askedFiles (hashFiles env files m).1 = [] ∧
      keptFiles (hashFiles env files m).1 = [] := by
  induction files generalizing m with
  | nil => simp [hashFiles, removeCalls, askedFiles, keptFiles]
  | cons f rest ih =>
    unfold hashFiles
    cases hf : getFileHash env f <;> simp [removeCalls, askedFiles, keptFiles, ih]

/-! ## The deletion loops -/

theorem Gated.nil (env : Env) : Gated env [] := by
  simp [Gated, removeCalls, yesFiles, removedFiles]

theorem Gated.append {env : Env} {a b : List Event} (ha : Gated env a) (hb : Gated env b) :
    Gated env (a ++ b) := by
  unfold Gated at *
  simp [removeCalls_append, yesFiles_append, removedFiles_append, ha.1, hb.1, ha.2, hb.2]

theorem hashFiles_gated (env : Env) (files : List String) (m : HashMap) :
    Gated env (hashFiles env files m).1 := by
  induction files generalizing m with
  | nil => simp [hashFiles, Gated.nil]
  | cons f rest ih =>
    unfold hashFiles
    cases hf : getFileHash env f with
    | error err =>
      have := ih m
      unfold Gated at *
      simpa [removeCalls, yesFiles, removedFiles] using this
    | ok d =>
      have := ih (mapAppend m d f)
      unfold Gated at *
      simpa [removeCalls, yesFiles, removedFiles] using this

theorem deleteLoop_succ (env : Env) (i : Nat) (dups stdin : List String) :
    askedFiles (deleteLoop env (i + 1) dups stdin).1 = dups ∧
      keptFiles (deleteLoop env (i + 1) dups stdin).1 = [] ∧
      hashCalls (deleteLoop env (i + 1) dups stdin).1 = [] ∧
      Gated env (deleteLoop env (i + 1) dups stdin).1 := by
  induction dups generalizing i stdin with
  | nil => simp [deleteLoop, askedFiles, keptFiles, hashCalls, Gated.nil]
  | cons f rest ih =>
    unfold deleteLoop
    simp only [Nat.succ_ne_zero, if_false]
    by_cases hy : (scanln stdin).1 = "y" ∨ (scanln stdin).1 = "Y"
    · have hy' : isYes (scanln stdin).1 = true := by simp [isYes, hy]
      simp only [hy, if_true]
      have := ih (i + 1) (scanln stdin).2
      cases hr : env.osRemove f with
      | none =>
        simp only [askedFiles, keptFiles, hashCalls, this, true_and]
        unfold Gated at *
        simp [removeCalls, yesFiles, removedFiles, hy', this.2.2.2.1, this.2.2.2.2, hr]
      | some err =>
        simp only [askedFiles, keptFiles, hashCalls, this, true_and]
        unfold Gated at *
        simp [removeCalls, yesFiles, removedFiles, hy', this.2.2.2.1, this.2.2.2.2, hr]
    · have hy' : isYes (scanln stdin).1 = false := by simp [isYes, hy]
      simp only [hy, if_false]
      have := ih (i + 1) (scanln stdin).2
      simp only [askedFiles, keptFiles, hashCalls, this, true_and]
      unfold Gated at *
      simp [removeCalls, yesFiles, removedFiles, hy', this.2.2.2.1, this.2.2.2.2]

theorem deleteLoop_zero (env : Env) (f : String) (rest stdin : List String) :
    deleteLoop env 0 (f :: rest) stdin =
      (Event.keeping f :: (deleteLoop env 1 rest stdin).1, (deleteLoop env 1 rest stdin).2) := by
  simp [deleteLoop]

theorem groupsLoop_trace (env : Env) (gs : List (String × List String)) (stdin : List String) :
    askedFiles (groupsLoop env gs stdin).1 = groupTails gs ∧
      keptFiles (groupsLoop env gs stdin).1 = groupHeads gs ∧
      hashCalls (groupsLoop env gs stdin).1 = [] ∧
      Gated env (groupsLoop env gs stdin).1 := by
  induction gs generalizing stdin with
  | nil => simp [groupsLoop, askedFiles, keptFiles, hashCalls, Gated.nil, groupTails, groupHeads]
  | cons g rest ih =>
    obtain ⟨h, dups⟩ := g
    unfold groupsLoop
    by_cases hl : dups.length > 1
    · simp only [hl, if_true]
      cases dups with
      | nil => simp at hl
      | cons f more =>
        have h1 := deleteLoop_succ env 0 more stdin
        simp only [Nat.zero_add] at h1
        have h2 := ih (deleteLoop env 1 more stdin).2
        rw [deleteLoop_zero]
        refine ⟨?_, ?_, ?_, ?_⟩
        · simp [askedFiles, askedFiles_append, h1.1, h2.1, groupTails]
        · simp [keptFiles, keptFiles_append, h1.2.1, h2.2.1, groupHeads] at hl ⊢
          simp [hl]
        · simp [hashCalls, hashCalls_append, h1.2.2.1, h2.2.2.1]
        · have : Gated env ([Event.dupHeader h, Event.keeping f]) := by
            simp [Gated, removeCalls, yesFiles, removedFiles]
          exact (this.append h1.2.2.2).append h2.2.2.2
    · simp only [hl, if_false]
      have h2 := ih stdin
      have ht : dups.tail = [] := by
        cases dups with
        | nil => rfl
        | cons f more =>
          cases more with
          | nil => rfl
          | cons _ _ => simp at hl
      refine ⟨?_, ?_, h2.2.2.1, h2.2.2.2⟩
      · simp [h2.1, groupTails, ht]
      · simp [h2.2.1, groupHeads, hl]

theorem bucketsLoop_trace (env : Env) (bs : List (Int × List String)) (stdin : List String) :
    askedFiles (bucketsLoop env bs stdin).1 = promptTargets env bs ∧
      keptFiles (bucketsLoop env bs stdin).1 = keepTargets env bs ∧
      hashCalls (bucketsLoop env bs stdin).1 =
        (bs.map fun b => if b.2.length > 1 then b.2 else []).flatten ∧
      Gated env (bucketsLoop env bs stdin).1 := by
  induction bs generalizing stdin with
  | nil =>
    simp [bucketsLoop, askedFiles, keptFiles, hashCalls, Gated.nil, promptTargets, keepTargets]
  | cons b rest ih =>
    obtain ⟨size, files⟩ := b
    unfold bucketsLoop
    by_cases hl : files.length > 1
    · simp only [hl, if_true]
      have hq := hashFiles_quiet env files []
      have hc := hashFiles_hashCalls env files []
      have hg := groupsLoop_trace env (env.rangeHash size (hashFiles env files []).2) stdin
      have hr := ih (groupsLoop env (env.rangeHash size (hashFiles env files []).2) stdin).2
      refine ⟨?_, ?_, ?_, ?_⟩
      · simp [askedFiles, askedFiles_append, hq, hg.1, hr.1, promptTargets, visitedGroups, hl,
          groupsOf]
      · simp [keptFiles, keptFiles_append, hq, hg.2.1, hr.2.1, keepTargets, visitedGroups, hl,
          groupsOf]
      · simp [hashCalls, hashCalls_append, hc, hg.2.2.1, hr.2.2.1, hl]
      · have h0 : Gated env (Event.processing size :: (hashFiles env files []).1) := by
          have hgt := hashFiles_gated env files []
          unfold Gated at *
          simpa [removeCalls, yesFiles, removedFiles] using hgt
        have := (h0.append hg.2.2.2).append hr.2.2.2
        simpa using this
    · simp only [hl, if_false]
      have hr := ih stdin
      refine ⟨?_, ?_, ?_, hr.2.2.2⟩
      · simp [hr.1, promptTargets, visitedGroups, hl, groupTails]
      · simp [hr.2.1, keepTargets, visitedGroups, hl, groupHeads]
      · simp [hr.2.2.1, hl]

/-! ## Counting the occurrences of a path -/

theorem count_firsts_tails (p : String) (gs : List (String × List String)) :
    List.count p (groupFirsts gs) + List.count p (groupTails gs) ≤
      List.count p (gs.map Prod.snd).flatten := by
  induction gs with
  | nil => simp [groupFirsts, groupTails]
  | cons g rest ih =>
    obtain ⟨h, dups⟩ := g
    simp only [groupFirsts, groupTails, List.map_cons, List.flatten_cons, List.count_append] at ih ⊢
    have hd : List.count p (dups.take 1) + List.count p dups.tail ≤ List.count p dups := by
      cases dups with
      | nil => simp
      | cons f more =>
        simp [List.count_cons]
        omega
    omega

theorem count_heads_le_firsts (p : String) (gs : List (String × List String)) :
    List.count p (groupHeads gs) ≤ List.count p (groupFirsts gs) := by
  induction gs with
  | nil => simp [groupHeads, groupFirsts]
  | cons g rest ih =>
    simp only [groupHeads, groupFirsts, List.map_cons, List.flatten_cons, List.count_append] at ih ⊢
    have : List.count p (if g.2.length > 1 then g.2.take 1 else []) ≤
        List.count p (g.2.take 1) := by
      split <;> simp
    omega

theorem count_keep_le_first (env : Env) (p : String) (bs : List (Int × List String)) :
    List.count p (keepTargets env bs) ≤ List.count p (firstTargets env bs) := by
  induction bs with
  | nil => simp [keepTargets, firstTargets]
  | cons b rest ih =>
    have := count_heads_le_firsts p (visitedGroups env b)
    simp only [keepTargets, firstTargets, List.map_cons, List.flatten_cons,
      List.count_append] at ih ⊢
    omega

theorem count_mapAppend {κ : Type} [DecidableEq κ] (p : String) (m : GoMap κ) (k : κ)
    (v : String) :
    List.count p ((mapAppend m k v).map Prod.snd).flatten =
      List.count p (m.map Prod.snd).flatten + List.count p [v] := by
  induction m with
  | nil => simp [mapAppend]
  | cons e rest ih =>
    obtain ⟨k0, vs⟩ := e
    by_cases h0 : k0 = k
    · simp only [mapAppend, h0, if_true, List.map_cons, List.flatten_cons, List.count_append]
      omega
    · simp only [mapAppend, h0, if_false, List.map_cons, List.flatten_cons, List.count_append, ih]
      omega

theorem count_hashFiles (env : Env) (p : String) (files : List String) (m : HashMap) :
    List.count p ((hashFiles env files m).2.map Prod.snd).flatten ≤
      List.count p (m.map Prod.snd).flatten + List.count p files := by
  induction files generalizing m with
  | nil => simp [hashFiles]
  | cons f rest ih =>
    unfold hashFiles
    cases hf : getFileHash env f with
    | error err =>
      have := ih m
      simp only [List.count_cons] at this ⊢
      omega
    | ok d =>
      have := ih (mapAppend m d f)
      rw [count_mapAppend] at this
      simp only [List.count_cons, List.count_nil] at this ⊢
      omega

theorem count_visitedGroups (env : Env) (hf : env.Fair) (p : String) (b : Int × List String) :
    List.count p (groupFirsts (visitedGroups env b)) +
      List.count p (groupTails (visitedGroups env b)) ≤ List.count p b.2 := by
  unfold visitedGroups
  split
  · have h1 := count_firsts_tails p (env.rangeHash b.1 (groupsOf env b.2))
    have h2 : List.count p ((env.rangeHash b.1 (groupsOf env b.2)).map Prod.snd).flatten =
        List.count p ((groupsOf env b.2).map Prod.snd).flatten :=
      (((hf.2 b.1 (groupsOf env b.2)).map Prod.snd).flatten).count_eq p
    have h3 := count_hashFiles env p b.2 []
    simp only [List.map_nil, List.flatten_nil, List.count_nil, Nat.zero_add] at h3
    unfold groupsOf at *
    omega
  · simp [groupFirsts, groupTails]

theorem count_targets (env : Env) (hf : env.Fair) (p : String) (bs : List (Int × List String)) :
    List.count p (firstTargets env bs) + List.count p (promptTargets env bs) ≤
      List.count p (bs.map Prod.snd).flatten := by
  induction bs with
  | nil => simp [firstTargets, promptTargets]
  | cons b rest ih =>
    have := count_visitedGroups env hf p b
    simp only [firstTargets, promptTargets, List.map_cons, List.flatten_cons,
      List.count_append] at ih ⊢
    omega

/-- With no path twice in the size map, no path is both the first of a group and asked about,
and none is asked about twice. -/
theorem count_first_asked (env : Env) (hf : env.Fair) (sizeMap : SizeMap)
    (hn : (allPaths sizeMap).Nodup) (stdin : List String) (p : String) :
    List.count p (firstTargets env (env.rangeSize Site.delete sizeMap)) +
      List.count p (askedFiles (deleteDuplicates env sizeMap stdin).1) ≤ 1 := by
  have ht := bucketsLoop_trace env (env.rangeSize Site.delete sizeMap) stdin
  unfold deleteDuplicates
  rw [ht.1]
  have h1 := count_targets env hf p (env.rangeSize Site.delete sizeMap)
  have h2 : List.count p ((env.rangeSize Site.delete sizeMap).map Prod.snd).flatten =
      List.count p (allPaths sizeMap) :=
    (((hf.1 Site.delete sizeMap).map Prod.snd).flatten).count_eq p
  have h3 := List.nodup_iff_count_le_one.1 hn p
  omega

/-! ## Membership in the targets -/

theorem mem_promptTargets (env : Env) (hf : env.Fair) (bs : List (Int × List String))
    (p : String) :
    p ∈ promptTargets env bs ↔
      ∃ b ∈ bs, b.2.length > 1 ∧ ∃ g ∈ groupsOf env b.2, p ∈ g.2.tail := by
  simp only [promptTargets, groupTails, visitedGroups, List.mem_flatten, List.mem_map]
  constructor
  · rintro ⟨l, ⟨b, hb, rfl⟩, hp⟩
    by_cases hl : b.2.length > 1
    · simp only [hl, if_true, List.mem_flatten, List.mem_map] at hp
      obtain ⟨t, ⟨g, hg, rfl⟩, hp⟩ := hp
      exact ⟨b, hb, hl, g, (hf.2 _ _).mem_iff.1 hg, hp⟩
    · simp [hl] at hp
  · rintro ⟨b, hb, hl, g, hg, hp⟩
    refine ⟨_, ⟨b, hb, rfl⟩, ?_⟩
    simp only [hl, if_true, List.mem_flatten, List.mem_map]
    exact ⟨_, ⟨g, (hf.2 _ _).mem_iff.2 hg, rfl⟩, hp⟩

theorem mem_keepTargets (env : Env) (hf : env.Fair) (bs : List (Int × List String))
    (p : String) :
    p ∈ keepTargets env bs ↔
      ∃ b ∈ bs, b.2.length > 1 ∧ ∃ g ∈ groupsOf env b.2, g.2.length > 1 ∧ g.2.head? = some p := by
  simp only [keepTargets, groupHeads, visitedGroups, List.mem_flatten, List.mem_map]
  constructor
  · rintro ⟨l, ⟨b, hb, rfl⟩, hp⟩
    by_cases hl : b.2.length > 1
    · simp only [hl, if_true, List.mem_flatten, List.mem_map] at hp
      obtain ⟨t, ⟨g, hg, rfl⟩, hp⟩ := hp
      by_cases hgl : g.2.length > 1
      · simp only [hgl, if_true] at hp
        refine ⟨b, hb, hl, g, (hf.2 _ _).mem_iff.1 hg, hgl, ?_⟩
        cases hg2 : g.2 with
        | nil => simp [hg2] at hp
        | cons f more => simpa [hg2, eq_comm] using hp
      · simp [hgl] at hp
    · simp [hl] at hp
  · rintro ⟨b, hb, hl, g, hg, hgl, hp⟩
    refine ⟨_, ⟨b, hb, rfl⟩, ?_⟩
    simp only [hl, if_true, List.mem_flatten, List.mem_map]
    refine ⟨_, ⟨g, (hf.2 _ _).mem_iff.2 hg, rfl⟩, ?_⟩
    simp only [hgl, if_true]
    cases hg2 : g.2 with
    | nil => simp [hg2] at hp
    | cons f more => simpa [hg2, eq_comm] using hp

theorem mem_firstTargets (env : Env) (hf : env.Fair) (bs : List (Int × List String))
    (p : String) :
    p ∈ firstTargets env bs ↔
      ∃ b ∈ bs, b.2.length > 1 ∧ ∃ g ∈ groupsOf env b.2, g.2.head? = some p := by
  simp only [firstTargets, groupFirsts, visitedGroups, List.mem_flatten, List.mem_map]
  constructor
  · rintro ⟨l, ⟨b, hb, rfl⟩, hp⟩
    by_cases hl : b.2.length > 1
    · simp only [hl, if_true, List.mem_flatten, List.mem_map] at hp
      obtain ⟨t, ⟨g, hg, rfl⟩, hp⟩ := hp
      refine ⟨b, hb, hl, g, (hf.2 _ _).mem_iff.1 hg, ?_⟩
      cases hg2 : g.2 with
      | nil => simp [hg2] at hp
      | cons f more => simpa [hg2, eq_comm] using hp
    · simp [hl] at hp
  · rintro ⟨b, hb, hl, g, hg, hp⟩
    refine ⟨_, ⟨b, hb, rfl⟩, ?_⟩
    simp only [hl, if_true, List.mem_flatten, List.mem_map]
    refine ⟨_, ⟨g, (hf.2 _ _).mem_iff.2 hg, rfl⟩, ?_⟩
    cases hg2 : g.2 with
    | nil => simp [hg2] at hp
    | cons f more => simpa [hg2, eq_comm] using hp

/-! ## General facts on traces -/

theorem yesFiles_sublist (tr : List Event) : (yesFiles tr).Sublist (askedFiles tr) := by
  induction tr with
  | nil => simp [yesFiles, askedFiles]
  | cons e t ih =>
    cases e with
    | askDelete f a =>
      by_cases h : isYes a
      · simpa [yesFiles, askedFiles, h] using ih
      · simpa [yesFiles, askedFiles, h] using ih.trans (List.sublist_cons_self f _)
    | _ => simpa [yesFiles, askedFiles] using ih

theorem mem_yesFiles (tr : List Event) (p : String) :
    p ∈ yesFiles tr ↔ ∃ a, Event.askDelete p a ∈ tr ∧ (a = "y" ∨ a = "Y") := by
  induction tr with
  | nil => simp [yesFiles]
  | cons e t ih =>
    cases e with
    | askDelete f a =>
      by_cases h : isYes a
      · have h' : a = "y" ∨ a = "Y" := by simpa [isYes] using h
        rw [show yesFiles (Event.askDelete f a :: t) = f :: yesFiles t by simp [yesFiles, h]]
        simp only [List.mem_cons, ih, Event.askDelete.injEq]
        constructor
        · rintro (rfl | ⟨a', h1, h2⟩)
          · exact ⟨a, Or.inl ⟨rfl, rfl⟩, h'⟩
          · exact ⟨a', Or.inr h1, h2⟩
        · rintro ⟨a', (⟨rfl, rfl⟩ | h1), h2⟩
          · exact Or.inl rfl
          · exact Or.inr ⟨a', h1, h2⟩
      · have h' : ¬ (a = "y" ∨ a = "Y") := by simpa [isYes] using h
        rw [show yesFiles (Event.askDelete f a :: t) = yesFiles t by simp [yesFiles, h]]
        simp only [List.mem_cons, ih, Event.askDelete.injEq]
        constructor
        · rintro ⟨a', h1, h2⟩
          exact ⟨a', Or.inr h1, h2⟩
        · rintro ⟨a', (⟨rfl, rfl⟩ | h1), h2⟩
          · exact absurd h2 h'
          · exact ⟨a', h1, h2⟩
    | _ => simpa [yesFiles] using ih

theorem mem_askedFiles (tr : List Event) (p : String) :
    p ∈ askedFiles tr ↔ ∃ a, Event.askDelete p a ∈ tr := by
  induction tr with
  | nil => simp [askedFiles]
  | cons e t ih =>
    cases e with
    | askDelete f a =>
      simp only [askedFiles, List.mem_cons, ih, Event.askDelete.injEq]
      constructor
      · rintro (rfl | ⟨a', h1⟩)
        · exact ⟨a, Or.inl ⟨rfl, rfl⟩⟩
        · exact ⟨a', Or.inr h1⟩
      · rintro ⟨a', (⟨rfl, rfl⟩ | h1)⟩
        · exact Or.inl rfl
        · exact Or.inr ⟨a', h1⟩
    | _ => simpa [askedFiles] using ih

theorem mem_removeCalls (tr : List Event) (p : String) :
    p ∈ removeCalls tr ↔ ∃ r, Event.remove p r ∈ tr := by
  induction tr with
  | nil => simp [removeCalls]
  | cons e t ih =>
    cases e with
    | remove f r =>
      simp only [removeCalls, List.mem_cons, ih, Event.remove.injEq]
      constructor
      · rintro (rfl | ⟨a', h1⟩)
        · exact ⟨r, Or.inl ⟨rfl, rfl⟩⟩
        · exact ⟨a', Or.inr h1⟩
      · rintro ⟨a', (⟨rfl, rfl⟩ | h1)⟩
        · exact Or.inl rfl
        · exact Or.inr ⟨a', h1⟩
    | _ => simpa [removeCalls] using ih

theorem mem_keptFiles (tr : List Event) (p : String) :
    p ∈ keptFiles tr ↔ Event.keeping p ∈ tr := by
  induction tr with
  | nil => simp [keptFiles]
  | cons e t ih =>
    cases e <;> simp [keptFiles, ih]

theorem mem_hashCalls (tr : List Event) (p : String) :
    p ∈ hashCalls tr ↔ ∃ r, Event.hash p r ∈ tr := by
  induction tr with
  | nil => simp [hashCalls]
  | cons e t ih =>
    cases e with
    | hash f r =>
      simp only [hashCalls, List.mem_cons, ih, Event.hash.injEq]
      constructor
      · rintro (rfl | ⟨a', h1⟩)
        · exact ⟨r, Or.inl ⟨rfl, rfl⟩⟩
        · exact ⟨a', Or.inr h1⟩
      · rintro ⟨a', (⟨rfl, rfl⟩ | h1)⟩
        · exact Or.inl rfl
        · exact Or.inr ⟨a', h1⟩
    | _ => simpa [hashCalls] using ih

theorem mem_removedFiles (tr : List Event) (p : String) :
    p ∈ removedFiles tr ↔ Event.remove p none ∈ tr := by
  induction tr with
  | nil => simp [removedFiles]
  | cons e t ih =>
    cases e with
    | remove f r =>
      cases r with
      | none => simp [removedFiles, ih]
      | some err => simp [removedFiles, ih]
    | _ => simp [removedFiles, ih]

/-! ## The first file of a group -/

theorem exEnv_fair : exEnv.Fair := ⟨fun _ _ => List.Perm.refl _, fun _ _ => List.Perm.refl _⟩

theorem head?_filter_eq_find? (P : String → Bool) (l : List String) :
    (l.filter P).head? = l.find? P := by
  induction l with
  | nil => rfl
  | cons x xs ih =>
    by_cases h : P x <;> simp [List.filter_cons, List.find?_cons, h, ih]

theorem yesFiles_of_allAnswered (tr : List Event) (h : AllAnswered "y" tr) :
    yesFiles tr = askedFiles tr := by
  induction tr with
  | nil => rfl
  | cons e t ih =>
    have ht : AllAnswered "y" t := fun e hm => h e (List.mem_cons_of_mem _ hm)
    cases e with
    | askDelete f a =>
      have : a = "y" := by simpa [answerIs] using h _ (List.mem_cons_self _ _)
      subst this
      simp [yesFiles, askedFiles, isYes, ih ht]
    | _ => simpa [yesFiles, askedFiles] using ih ht

theorem removeCalls_subset_asked (env : Env) (sizeMap : SizeMap) (stdin : List String)
    (p : String) (h : p ∈ removeCalls (deleteDuplicates env sizeMap stdin).1) :
    p ∈ askedFiles (deleteDuplicates env sizeMap stdin).1 := by
  have hg := (bucketsLoop_trace env (env.rangeSize Site.delete sizeMap) stdin).2.2.2
  unfold deleteDuplicates at *
  rw [hg.1] at h
  exact (yesFiles_sublist _).subset h

theorem removedFiles_subset_calls (tr : List Event) (p : String) (h : p ∈ removedFiles tr) :
    p ∈ removeCalls tr :=
  (mem_removeCalls tr p).2 ⟨none, (mem_removedFiles tr p).1 h⟩

/-- The first file of a group of a visited bucket is never passed to `os.Remove`, when no path
occurs twice in the size map. -/
theorem first_not_removed (env : Env) (hf : env.Fair) (sizeMap : SizeMap)
    (hn : (allPaths sizeMap).Nodup) (stdin : List String)
    (b : Int × List String) (hb : b ∈ sizeMap) (hl : b.2.length > 1)
    (g : String × List String) (hg : g ∈ groupsOf env b.2) (first : String)
    (hfirst : g.2.head? = some first) :
    first ∉ removeCalls (deleteDuplicates env sizeMap stdin).1 := by
  intro hr
  have hask := removeCalls_subset_asked env sizeMap stdin first hr
  have hmem : first ∈ firstTargets env (env.rangeSize Site.delete sizeMap) :=
    (mem_firstTargets env hf _ first).2
      ⟨b, (hf.1 Site.delete sizeMap).mem_iff.2 hb, hl, g, hg, hfirst⟩
  have h1 := List.count_pos_iff.2 hmem
  have h2 := List.count_pos_iff.2 hask
  have := count_first_asked env hf sizeMap hn stdin first
  omega

/-- The files after the first of a group of a visited bucket are all asked about. -/
theorem rest_asked (env : Env) (hf : env.Fair) (sizeMap : SizeMap) (stdin : List String)
    (b : Int × List String) (hb : b ∈ sizeMap) (hl : b.2.length > 1)
    (g : String × List String) (hg : g ∈ groupsOf env b.2) (p : String) (hp : p ∈ g.2.tail) :
    p ∈ askedFiles (deleteDuplicates env sizeMap stdin).1 := by
  have ht := bucketsLoop_trace env (env.rangeSize Site.delete sizeMap) stdin
  unfold deleteDuplicates
  rw [ht.1]
  exact (mem_promptTargets env hf _ p).2
    ⟨b, (hf.1 Site.delete sizeMap).mem_iff.2 hb, hl, g, hg, hp⟩

theorem mem_removedFiles_iff (env : Env) (sizeMap : SizeMap) (stdin : List String) (p : String) :
    p ∈ removedFiles (deleteDuplicates env sizeMap stdin).1 ↔
      p ∈ yesFiles (deleteDuplicates env sizeMap stdin).1 ∧ env.osRemove p = none := by
  have hg := (bucketsLoop_trace env (env.rangeSize Site.delete sizeMap) stdin).2.2.2
  unfold deleteDuplicates
  rw [hg.2, hg.1]
  simp [List.mem_filter]

/-- C9 (amended): for every size map in which no path occurs twice, every sequence of prompt
answers and every hashing outcome, the file announced as `Keeping` is never passed to
`os.Remove`; the first path of every hash group of a bucket of more than one file is never passed
to `os.Remove`, is not removed, and is the earliest path of the bucket whose hashing succeeded
with the digest of the group. -/
theorem C9_first_of_group_is_kept (env : Env) (hf : env.Fair) (sizeMap : SizeMap)
    (hn : (allPaths sizeMap).Nodup) (stdin : List String) :
    (∀ p ∈ keptFiles (deleteDuplicates env sizeMap stdin).1,
        p ∉ removeCalls (deleteDuplicates env sizeMap stdin).1) ∧
      ∀ b ∈ sizeMap, b.2.length > 1 → ∀ g ∈ groupsOf env b.2,
        ∃ first, g.2.head? = some first ∧
          first ∉ removeCalls (deleteDuplicates env sizeMap stdin).1 ∧
          first ∉ removedFiles (deleteDuplicates env sizeMap stdin).1 ∧
          b.2.find? (fun p => decide (getFileHash env p = .ok g.1)) = some first := by
  constructor
  · intro p hp hr
    have ht := bucketsLoop_trace env (env.rangeSize Site.delete sizeMap) stdin
    have hk : p ∈ keepTargets env (env.rangeSize Site.delete sizeMap) := by
      unfold deleteDuplicates at hp
      rwa [ht.2.1] at hp
    obtain ⟨b, hb, hl, g, hg, _, hhead⟩ := (mem_keepTargets env hf _ p).1 hk
    exact first_not_removed env hf sizeMap hn stdin b
      ((hf.1 Site.delete sizeMap).mem_iff.1 hb) hl g hg p hhead hr
  · intro b hb hl g hg
    have hne := groupsOf_ne_nil env b.2 g hg
    have hfilter := groupsOf_mem env b.2 g.1 g.2 hg
    cases hg2 : g.2 with
    | nil => exact absurd hg2 hne
    | cons first rest =>
      have hhead : g.2.head? = some first := by simp [hg2]
      have hnr := first_not_removed env hf sizeMap hn stdin b hb hl g hg first hhead
      refine ⟨first, by simp, hnr, fun h => hnr (removedFiles_subset_calls _ _ h), ?_⟩
      rw [← head?_filter_eq_find?, ← hfilter, hhead]

/-- C9, an instance: in the example run the kept file `a` is never passed to `os.Remove`. -/
theorem C9_first_of_group_is_kept_witness :
    (allPaths exSizeMap).Nodup ∧
      ∀ p ∈ keptFiles (deleteDuplicates exEnv exSizeMap ["y", "n"]).1,
        p ∉ removeCalls (deleteDuplicates exEnv exSizeMap ["y", "n"]).1 :=
  ⟨by decide, (C9_first_of_group_is_kept exEnv exEnv_fair exSizeMap (by decide) ["y", "n"]).1⟩

/-- C9 as stated fails on a size map that holds a path twice: the bucket `a, a` forms the group
`a, a`, whose first path `a` is announced as kept and then passed to `os.Remove` and removed. -/
theorem C9_counterexample :
    groupsOf exEnv ["a", "a"] = [("01", ["a", "a"])] ∧
      keptFiles (deleteDuplicates exEnv [(10, ["a", "a"])] ["y"]).1 = ["a"] ∧
      removeCalls (deleteDuplicates exEnv [(10, ["a", "a"])] ["y"]).1 = ["a"] ∧
      removedFiles (deleteDuplicates exEnv [(10, ["a", "a"])] ["y"]).1 = ["a"] := by
  decide

/-! ## Retained and removed files -/

theorem group_subset_bucket (env : Env) (files : List String) (g : String × List String)
    (hg : g ∈ groupsOf env files) (p : String) (hp : p ∈ g.2) : p ∈ files := by
  have := groupsOf_mem env files g.1 g.2 hg
  rw [this] at hp
  exact (List.mem_filter.1 hp).1

/-- C1 (amended): for every size map in which no path occurs twice, every outcome of hashing,
every sequence of answers and every outcome of the removals, each hash group of more than one
file has its first file retained (it is never passed to `os.Remove`); each other file of the
group is asked about, and it is removed exactly when its own prompt was answered `y` or `Y` and
`os.Remove` returned no error.  When every prompt is answered `y` and no removal fails, the first
file is the only file of the group that is retained. -/
theorem C1_one_file_retained_per_group (env : Env) (hf : env.Fair) (sizeMap : SizeMap)
    (hn : (allPaths sizeMap).Nodup) (stdin : List String)
    (b : Int × List String) (hb : b ∈ sizeMap) (hl : b.2.length > 1)
    (g : String × List String) (hg : g ∈ groupsOf env b.2) (hgl : g.2.length > 1) :
    ∃ first rest, g.2 = first :: rest ∧
      first ∉ removeCalls (deleteDuplicates env sizeMap stdin).1 ∧
      first ∉ removedFiles (deleteDuplicates env sizeMap stdin).1 ∧
      (∀ p ∈ rest, p ∈ askedFiles (deleteDuplicates env sizeMap stdin).1 ∧
        (p ∈ removedFiles (deleteDuplicates env sizeMap stdin).1 ↔
          p ∈ yesFiles (deleteDuplicates env sizeMap stdin).1 ∧ env.osRemove p = none)) ∧
      (AllAnswered "y" (deleteDuplicates env sizeMap stdin).1 → (∀ p, env.osRemove p = none) →
        g.2.filter (fun p => decide (p ∉ removedFiles (deleteDuplicates env sizeMap stdin).1)) =
          [first]) := by
  cases hg2 : g.2 with
  | nil => simp [hg2] at hgl
  | cons first rest =>
    have hhead : g.2.head? = some first := by simp [hg2]
    have hnr := first_not_removed env hf sizeMap hn stdin b hb hl g hg first hhead
    have hnr' : first ∉ removedFiles (deleteDuplicates env sizeMap stdin).1 :=
      fun h => hnr (removedFiles_subset_calls _ _ h)
    have hask : ∀ p ∈ rest, p ∈ askedFiles (deleteDuplicates env sizeMap stdin).1 := by
      intro p hp
      exact rest_asked env hf sizeMap stdin b hb hl g hg p (by simpa [hg2] using hp)
    refine ⟨first, rest, rfl, hnr, hnr', ?_, ?_⟩
    · intro p hp
      exact ⟨hask p hp, mem_removedFiles_iff env sizeMap stdin p⟩
    · intro hyes hrm
      have hall : ∀ p ∈ rest, p ∈ removedFiles (deleteDuplicates env sizeMap stdin).1 := by
        intro p hp
        rw [mem_removedFiles_iff, yesFiles_of_allAnswered _ hyes]
        exact ⟨hask p hp, hrm p⟩
      rw [List.filter_cons]
      simp only [hnr', not_false_eq_true, decide_True, if_true, List.cons.injEq, true_and]
      rw [List.filter_eq_nil_iff]
      intro p hp
      simp [hall p hp]

/-- C1, an instance: the group `a, b, c` of the example, every prompt answered `y`. -/
theorem C1_one_file_retained_per_group_witness :
    (allPaths exSizeMap).Nodup ∧ ((10 : Int), ["a", "b", "c"]) ∈ exSizeMap ∧
      ("01", ["a", "b", "c"]) ∈ groupsOf exEnv ["a", "b", "c"] ∧
      ∃ first rest, ["a", "b", "c"] = first :: rest ∧
        first ∉ removeCalls (deleteDuplicates exEnv exSizeMap ["y", "y"]).1 ∧
        first ∉ removedFiles (deleteDuplicates exEnv exSizeMap ["y", "y"]).1 ∧
        (∀ p ∈ rest, p ∈ askedFiles (deleteDuplicates exEnv exSizeMap ["y", "y"]).1 ∧
          (p ∈ removedFiles (deleteDuplicates exEnv exSizeMap ["y", "y"]).1 ↔
            p ∈ yesFiles (deleteDuplicates exEnv exSizeMap ["y", "y"]).1 ∧
              exEnv.osRemove p = none)) ∧
        (AllAnswered "y" (deleteDuplicates exEnv exSizeMap ["y", "y"]).1 →
          (∀ p, exEnv.osRemove p = none) →
          ["a", "b", "c"].filter
            (fun p => decide (p ∉ removedFiles (deleteDuplicates exEnv exSizeMap ["y", "y"]).1)) =
            [first]) :=
  ⟨by decide, by decide, by decide,
    C1_one_file_retained_per_group exEnv exEnv_fair exSizeMap (by decide) ["y", "y"]
      (10, ["a", "b", "c"]) (by decide) (by decide) ("01", ["a", "b", "c"]) (by decide)
      (by decide)⟩

/-- C1 as stated fails when a prompt is answered `n`: of the group `a, b` both files are retained;
and on a size map that holds a path twice no file of the group `a, a` is retained. -/
theorem C1_counterexample :
    (groupsOf exEnv ["a", "b"] = [("01", ["a", "b"])] ∧
        removedFiles (deleteDuplicates exEnv [(10, ["a", "b"])] ["n"]).1 = [] ∧
        (["a", "b"].filter (fun p =>
          decide (p ∉ removedFiles (deleteDuplicates exEnv [(10, ["a", "b"])] ["n"]).1))).length
          = 2) ∧
      (groupsOf exEnv ["a", "a"] = [("01", ["a", "a"])] ∧
        (["a", "a"].filter (fun p =>
          decide (p ∉ removedFiles (deleteDuplicates exEnv [(10, ["a", "a"])] ["y"]).1))).length
          = 0) := by
  decide

/-- C2: for every size map and every sequence of prompt answers, a path every bucket of which
holds exactly one path is neither hashed nor passed to `os.Remove`, and a path that is the only
member of its hash group in every bucket of more than one path that holds it is never passed to
`os.Remove`. -/
theorem C2_singletons_untouched (env : Env) (hf : env.Fair) (sizeMap : SizeMap)
    (stdin : List String) (p : String) :
    ((∀ b ∈ sizeMap, p ∈ b.2 → b.2.length = 1) →
        p ∉ hashCalls (deleteDuplicates env sizeMap stdin).1 ∧
          p ∉ removeCalls (deleteDuplicates env sizeMap stdin).1) ∧
      ((∀ b ∈ sizeMap, b.2.length > 1 → ∀ g ∈ groupsOf env b.2, p ∈ g.2 → g.2 = [p]) →
        p ∉ removeCalls (deleteDuplicates env sizeMap stdin).1) := by
  have ht := bucketsLoop_trace env (env.rangeSize Site.delete sizeMap) stdin
  have key : p ∈ removeCalls (deleteDuplicates env sizeMap stdin).1 →
      ∃ b ∈ sizeMap, b.2.length > 1 ∧ ∃ g ∈ groupsOf env b.2, p ∈ g.2.tail := by
    intro hr
    have hask := removeCalls_subset_asked env sizeMap stdin p hr
    unfold deleteDuplicates at hask
    rw [ht.1] at hask
    obtain ⟨b, hb, hl, g, hg, hp⟩ := (mem_promptTargets env hf _ p).1 hask
    exact ⟨b, (hf.1 Site.delete sizeMap).mem_iff.1 hb, hl, g, hg, hp⟩
  constructor
  · intro h1
    constructor
    · intro hh
      unfold deleteDuplicates at hh
      rw [ht.2.2.1] at hh
      simp only [List.mem_flatten, List.mem_map] at hh
      obtain ⟨l, ⟨b, hb, rfl⟩, hp⟩ := hh
      by_cases hl : b.2.length > 1
      · simp only [hl, if_true] at hp
        have := h1 b ((hf.1 Site.delete sizeMap).mem_iff.1 hb) hp
        omega
      · simp [hl] at hp
    · intro hr
      obtain ⟨b, hb, hl, g, hg, hp⟩ := key hr
      have := h1 b hb (group_subset_bucket env b.2 g hg p (List.mem_of_mem_tail hp))
      omega
  · intro h2 hr
    obtain ⟨b, hb, hl, g, hg, hp⟩ := key hr
    have := h2 b hb hl g hg (List.mem_of_mem_tail hp)
    rw [this] at hp
    simp at hp

/-- C2, two instances: in the example `d` is alone in its bucket and is neither hashed nor passed
to `os.Remove`; in the bucket `a, d, b` it is alone in its hash group and is not passed to
`os.Remove`. -/
theorem C2_singletons_untouched_witness :
    ((∀ b ∈ exSizeMap, "d" ∈ b.2 → b.2.length = 1) ∧
        "d" ∉ hashCalls (deleteDuplicates exEnv exSizeMap ["y", "y"]).1 ∧
        "d" ∉ removeCalls (deleteDuplicates exEnv exSizeMap ["y", "y"]).1) ∧
      ((∀ b ∈ [((10 : Int), ["a", "d", "b"])], b.2.length > 1 →
          ∀ g ∈ groupsOf exEnv b.2, "d" ∈ g.2 → g.2 = ["d"]) ∧
        "d" ∉ removeCalls (deleteDuplicates exEnv [(10, ["a", "d", "b"])] ["y", "y"]).1) :=
  ⟨⟨by decide,
      (C2_singletons_untouched exEnv exEnv_fair exSizeMap ["y", "y"] "d").1 (by decide)⟩,
    ⟨by decide,
      (C2_singletons_untouched exEnv exEnv_fair [(10, ["a", "d", "b"])] ["y", "y"] "d").2
        (by decide)⟩⟩

theorem hashFiles_congr (env env' : Env) (h : ∀ p, getFileHash env' p = getFileHash env p)
    (files : List String) (m : HashMap) : hashFiles env' files m = hashFiles env files m := by
  induction files generalizing m with
  | nil => simp [hashFiles]
  | cons f rest ih =>
    unfold hashFiles
    rw [h f]
    cases hf : getFileHash env f <;> simp [ih]

/-! ## Grouping and hashing failures -/

theorem mem_group_iff (env : Env) (files : List String) (g : String × List String)
    (hg : g ∈ groupsOf env files) (x : String) :
    x ∈ g.2 ↔ x ∈ files ∧ getFileHash env x = .ok g.1 := by
  have := groupsOf_mem env files g.1 g.2 hg
  rw [this]
  simp [List.mem_filter]

theorem mem_visitedGroups (env : Env) (hf : env.Fair) (b : Int × List String)
    (g : String × List String) :
    g ∈ visitedGroups env b ↔ b.2.length > 1 ∧ g ∈ groupsOf env b.2 := by
  unfold visitedGroups
  by_cases hl : b.2.length > 1
  · simp only [hl, if_true, true_and]
    exact (hf.2 _ _).mem_iff
  · simp [hl]

theorem hashFiles_announced (env : Env) (files : List String) (m : HashMap) (x : List Event) :
    announcedGroups ((hashFiles env files m).1 ++ x) = announcedGroups x := by
  induction files generalizing m with
  | nil => simp [hashFiles]
  | cons f rest ih =>
    unfold hashFiles
    cases hf : getFileHash env f <;> simp [announcedGroups, ih]

theorem deleteLoop_announced (env : Env) (i : Nat) (dups stdin : List String) (x : List Event) :
    announcedGroups ((deleteLoop env i dups stdin).1 ++ x) = announcedGroups x ∧
      groupMembers ((deleteLoop env i dups stdin).1 ++ x) = dups ++ groupMembers x := by
  induction dups generalizing i stdin with
  | nil => simp [deleteLoop]
  | cons f rest ih =>
    unfold deleteLoop
    by_cases hi : i = 0
    · simp [hi, announcedGroups, groupMembers, ih]
    · simp only [hi, if_false]
      by_cases hy : (scanln stdin).1 = "y" ∨ (scanln stdin).1 = "Y"
      · simp only [hy, if_true]
        cases hr : env.osRemove f <;> simp [announcedGroups, groupMembers, ih]
      · simp [hy, announcedGroups, groupMembers, ih]

theorem groupsLoop_announced (env : Env) (gs : List (String × List String))
    (stdin : List String) (x : List Event) (hx : groupMembers x = []) :
    announcedGroups ((groupsLoop env gs stdin).1 ++ x) =
        gs.filter (fun g => decide (g.2.length > 1)) ++ announcedGroups x ∧
      groupMembers ((groupsLoop env gs stdin).1 ++ x) = [] := by
  induction gs generalizing stdin with
  | nil => simp [groupsLoop, hx]
  | cons g rest ih =>
    obtain ⟨h, dups⟩ := g
    unfold groupsLoop
    by_cases hl : dups.length > 1
    · have ih' := ih (deleteLoop env 0 dups stdin).2
      have hd := deleteLoop_announced env 0 dups stdin
        ((groupsLoop env rest (deleteLoop env 0 dups stdin).2).1 ++ x)
      simp only [hl, if_true, List.cons_append, List.append_assoc, announcedGroups, groupMembers,
        hd.1, hd.2, ih'.1, ih'.2, List.append_nil, List.filter_cons, decide_True, and_self]
    · have ih' := ih stdin
      simp only [hl, if_false, ih'.1, ih'.2, List.filter_cons, decide_False, and_self]
      simp

theorem bucketsLoop_announced (env : Env) (bs : List (Int × List String))
    (stdin : List String) :
    announcedGroups (bucketsLoop env bs stdin).1 =
        (bs.map fun b =>
          (visitedGroups env b).filter (fun g => decide (g.2.length > 1))).flatten ∧
      groupMembers (bucketsLoop env bs stdin).1 = [] := by
  induction bs generalizing stdin with
  | nil => simp [bucketsLoop, announcedGroups, groupMembers]
  | cons b rest ih =>
    obtain ⟨size, files⟩ := b
    unfold bucketsLoop
    by_cases hl : files.length > 1
    · have ih' := ih (groupsLoop env (env.rangeHash size (hashFiles env files []).2) stdin).2
      have hg := groupsLoop_announced env (env.rangeHash size (hashFiles env files []).2) stdin
        _ ih'.2
      simp only [hl, if_true, List.cons_append, List.append_assoc, announcedGroups, groupMembers,
        hashFiles_announced, hg.1, ih'.1, List.map_cons, List.flatten_cons, visitedGroups,
        groupsOf, and_self]
    · have ih' := ih stdin
      simp only [hl, if_false, ih'.1, ih'.2, List.map_cons, List.flatten_cons, visitedGroups,
        List.filter_nil, List.nil_append, and_self]

/-- The groups a run of `deleteDuplicates` announces are the groups of more than one file of the
hash maps of the buckets of more than one file. -/
theorem mem_announcedGroups (env : Env) (hf : env.Fair) (sizeMap : SizeMap)
    (stdin : List String) (g : String × List String) :
    g ∈ announcedGroups (deleteDuplicates env sizeMap stdin).1 ↔
      ∃ b ∈ sizeMap, b.2.length > 1 ∧ g ∈ groupsOf env b.2 ∧ g.2.length > 1 := by
  unfold deleteDuplicates
  rw [(bucketsLoop_announced env _ stdin).1]
  simp only [List.mem_flatten, List.mem_map]
  constructor
  · rintro ⟨l, ⟨b, hb, rfl⟩, hg⟩
    rw [List.mem_filter] at hg
    obtain ⟨hl, hg'⟩ := (mem_visitedGroups env hf b g).1 hg.1
    exact ⟨b, (hf.1 Site.delete sizeMap).mem_iff.1 hb, hl, hg', by simpa using hg.2⟩
  · rintro ⟨b, hb, hl, hg, hgl⟩
    refine ⟨_, ⟨b, (hf.1 Site.delete sizeMap).mem_iff.2 hb, rfl⟩, ?_⟩
    rw [List.mem_filter]
    exact ⟨(mem_visitedGroups env hf b g).2 ⟨hl, hg⟩, by simpa using hgl⟩

/-- C3: duplicate grouping is size-then-hash equality.  For two paths `p` and `q` whose hashing
succeeds, a run of `deleteDuplicates` announces a duplicate group that names both if and only if
some size bucket holds both and `getFileHash` returns the same digest for both; and all the files
a run names under one `Duplicate files with hash` line lie in one size bucket and hash to the
digest printed, so that paths of different buckets are never grouped together, even when their
digests are equal. -/
theorem C3_grouping_is_size_then_hash (env : Env) (hf : env.Fair) (sizeMap : SizeMap)
    (stdin : List String) (p q : String) (hpq : p ≠ q) (dp dq : String)
    (hp : getFileHash env p = .ok dp) (hq : getFileHash env q = .ok dq) :
    ((∃ g ∈ announcedGroups (deleteDuplicates env sizeMap stdin).1, p ∈ g.2 ∧ q ∈ g.2) ↔
        (∃ b ∈ sizeMap, p ∈ b.2 ∧ q ∈ b.2) ∧ dp = dq) ∧
      ∀ g ∈ announcedGroups (deleteDuplicates env sizeMap stdin).1,
        ∃ b ∈ sizeMap, ∀ x ∈ g.2, x ∈ b.2 ∧ getFileHash env x = .ok g.1 := by
  constructor
  · constructor
    · rintro ⟨g, hg, hpg, hqg⟩
      obtain ⟨b, hb, _, hg', _⟩ := (mem_announcedGroups env hf sizeMap stdin g).1 hg
      have h1 := (mem_group_iff env b.2 g hg' p).1 hpg
      have h2 := (mem_group_iff env b.2 g hg' q).1 hqg
      refine ⟨⟨b, hb, h1.1, h2.1⟩, ?_⟩
      have e1 := hp.symm.trans h1.2
      have e2 := hq.symm.trans h2.2
      simp only [Except.ok.injEq] at e1 e2
      rw [e1, e2]
    · rintro ⟨⟨b, hb, hpb, hqb⟩, rfl⟩
      have hl : b.2.length > 1 := by
        cases hb2 : b.2 with
        | nil => simp [hb2] at hpb
        | cons x xs =>
          cases xs with
          | nil =>
            simp only [hb2, List.mem_singleton] at hpb hqb
            exact absurd (hpb.trans hqb.symm) hpq
          | cons y ys => simp
      have hpm : p ∈ b.2.filter (fun x => decide (getFileHash env x = .ok dp)) := by
        simp [List.mem_filter, hpb, hp]
      have hqm : q ∈ b.2.filter (fun x => decide (getFileHash env x = .ok dp)) := by
        simp [List.mem_filter, hqb, hq]
      have hne : b.2.filter (fun x => decide (getFileHash env x = .ok dp)) ≠ [] :=
        List.ne_nil_of_mem hpm
      have hgl : (b.2.filter (fun x => decide (getFileHash env x = .ok dp))).length > 1 := by
        cases hfl : b.2.filter (fun x => decide (getFileHash env x = .ok dp)) with
        | nil => exact absurd hfl hne
        | cons x xs =>
          cases xs with
          | nil =>
            rw [hfl] at hpm hqm
            simp only [List.mem_singleton] at hpm hqm
            exact absurd (hpm.trans hqm.symm) hpq
          | cons y ys => simp
      exact ⟨_, (mem_announcedGroups env hf sizeMap stdin _).2
        ⟨b, hb, hl, mem_groupsOf env b.2 dp hne, hgl⟩, hpm, hqm⟩
  · intro g hg
    obtain ⟨b, hb, _, hg', _⟩ := (mem_announcedGroups env hf sizeMap stdin g).1 hg
    exact ⟨b, hb, fun x hx => (mem_group_iff env b.2 g hg' x).1 hx⟩

/-- C3, an instance: in the example `a` and `b` have the same size and digest and are announced
in one group; `c` has their digest and another size, and is announced in another group. -/
theorem C3_grouping_is_size_then_hash_witness :
    "a" ≠ "b" ∧ getFileHash exEnv "a" = .ok "01" ∧ getFileHash exEnv "b" = .ok "01" ∧
      announcedGroups (deleteDuplicates exEnv exSizeMap2 ["y", "n", "y"]).1 =
        [("01", ["a", "b"]), ("02", ["d", "d2"]), ("01", ["c", "f"])] ∧
      ((∃ g ∈ announcedGroups (deleteDuplicates exEnv exSizeMap2 ["y", "n", "y"]).1,
          "a" ∈ g.2 ∧ "b" ∈ g.2) ↔
        (∃ b ∈ exSizeMap2, "a" ∈ b.2 ∧ "b" ∈ b.2) ∧ "01" = "01") :=
  ⟨by decide, by decide, by decide, by decide,
    (C3_grouping_is_size_then_hash exEnv exEnv_fair exSizeMap2 ["y", "n", "y"] "a" "b"
      (by decide) "01" "01" (by decide) (by decide)).1⟩

theorem hashFiles_skip (env : Env) (p : String) (err : String)
    (hp : getFileHash env p = .error err) (files : List String) (m : HashMap) :
    (hashFiles env files m).2 = (hashFiles env (files.filter (fun q => decide (q ≠ p))) m).2 := by
  induction files generalizing m with
  | nil => simp [hashFiles]
  | cons f rest ih =>
    by_cases hfp : f = p
    · subst hfp
      rw [List.filter_cons]
      simp only [ne_eq, not_true_eq_false, decide_False, Bool.false_eq_true, if_false]
      rw [← ih m]
      conv => lhs; unfold hashFiles
      simp [hp]
    · rw [List.filter_cons]
      simp only [ne_eq, hfp, not_false_eq_true, decide_True, if_true]
      conv => lhs; unfold hashFiles
      conv => rhs; unfold hashFiles
      cases hf : getFileHash env f with
      | error e => simpa using ih m
      | ok d => simpa using ih _

theorem promptTargets_withRemove (env : Env) (r : String → Option String)
    (bs : List (Int × List String)) :
    promptTargets (env.withRemove r) bs = promptTargets env bs := by
  have : ∀ files, groupsOf (env.withRemove r) files = groupsOf env files := by
    intro files
    unfold groupsOf
    rw [hashFiles_congr env (env.withRemove r) (fun p => rfl)]
  simp only [promptTargets, visitedGroups, this]
  rfl

/-- C6: a file whose hashing fails is skipped.  A path for which `getFileHash` returns an error
is placed in no hash group of a bucket, the hash map of the bucket is the one built as if the
path were absent from the bucket, every path of the bucket is still hashed, and the failing path
is never passed to `os.Remove`.  Likewise every file after the first of a hash group is prompted
for, and the files that are prompted for are the same whatever `os.Remove` returns: a failed
removal does not stop the remaining prompts. -/
theorem C6_failures_skip_one_file (env : Env) (hf : env.Fair) (sizeMap : SizeMap)
    (stdin : List String) (p err : String) (hp : getFileHash env p = .error err) :
    (∀ files, (∀ g ∈ groupsOf env files, p ∉ g.2) ∧
        groupsOf env files = groupsOf env (files.filter (fun q => decide (q ≠ p))) ∧
        hashCalls (hashFiles env files []).1 = files) ∧
      p ∉ removeCalls (deleteDuplicates env sizeMap stdin).1 ∧
      (∀ b ∈ sizeMap, b.2.length > 1 → ∀ g ∈ groupsOf env b.2, ∀ q ∈ g.2.tail,
        q ∈ askedFiles (deleteDuplicates env sizeMap stdin).1) ∧
      ∀ r, askedFiles (deleteDuplicates (env.withRemove r) sizeMap stdin).1 =
        askedFiles (deleteDuplicates env sizeMap stdin).1 := by
  have hgroup : ∀ files, ∀ g ∈ groupsOf env files, p ∉ g.2 := by
    intro files g hg hpg
    have := ((mem_group_iff env files g hg p).1 hpg).2
    rw [hp] at this
    cases this
  refine ⟨fun files => ⟨hgroup files, ?_, hashFiles_hashCalls env files []⟩, ?_,
    fun b hb hl g hg q hq => rest_asked env hf sizeMap stdin b hb hl g hg q hq, ?_⟩
  · exact hashFiles_skip env p err hp files []
  · intro hr
    have hask := removeCalls_subset_asked env sizeMap stdin p hr
    have ht := bucketsLoop_trace env (env.rangeSize Site.delete sizeMap) stdin
    unfold deleteDuplicates at hask
    rw [ht.1] at hask
    obtain ⟨b, _, _, g, hg, hpg⟩ := (mem_promptTargets env hf _ p).1 hask
    exact hgroup b.2 g hg (List.mem_of_mem_tail hpg)
  · intro r
    have h1 := (bucketsLoop_trace (env.withRemove r)
      ((env.withRemove r).rangeSize Site.delete sizeMap) stdin).1
    have h2 := (bucketsLoop_trace env (env.rangeSize Site.delete sizeMap) stdin).1
    unfold deleteDuplicates
    rw [h1, h2, promptTargets_withRemove]
    rfl

/-- C6, an instance: in the bucket `a, e, b` the path `e` cannot be opened; `a` and `b` are
grouped as in the bucket `a, b`, and `e` is not passed to `os.Remove`. -/
theorem C6_failures_skip_one_file_witness :
    getFileHash exEnv "e" = .error "permission denied" ∧
      groupsOf exEnv ["a", "e", "b"] = groupsOf exEnv ["a", "b"] ∧
      "e" ∉ removeCalls (deleteDuplicates exEnv [(10, ["a", "e", "b"])] ["y"]).1 :=
  ⟨by decide,
    ((C6_failures_skip_one_file exEnv exEnv_fair [(10, ["a", "e", "b"])] ["y"] "e"
      "permission denied" (by decide)).1 ["a", "e", "b"]).2.1,
    (C6_failures_skip_one_file exEnv exEnv_fair [(10, ["a", "e", "b"])] ["y"] "e"
      "permission denied" (by decide)).2.1⟩

/-! ## The scan -/

theorem filepathWalk_visit (path : String) (info : FileInfo) (rest : List WalkStep)
    (m : SizeMap) :
    filepathWalk walkFn (WalkStep.visit path info :: rest) m =
      filepathWalk walkFn rest (if isMp4 info then mapAppend m info.size path else m) := by
  by_cases h : isMp4 info <;> simp [filepathWalk, walkFn, h]

theorem filepathWalk_failed (path err : String) (rest : List WalkStep) (m : SizeMap) :
    filepathWalk walkFn (WalkStep.failed path err :: rest) m =
      (m, [Event.errAccess path err], some err) := by
  simp [filepathWalk, walkFn]

theorem walk_visits_get (entries : List (String × FileInfo)) (m : SizeMap) (size : Int) :
    mapGet (filepathWalk walkFn (visits entries) m).1 size =
      mapGet m size ++
        (entries.filter fun e => isMp4 e.2 && decide (e.2.size = size)).map Prod.fst := by
  induction entries generalizing m with
  | nil => simp [visits, filepathWalk]
  | cons e rest ih =>
    have ih' := ih
    unfold visits at ih' ⊢
    rw [List.map_cons, filepathWalk_visit, ih', List.filter_cons]
    by_cases h : isMp4 e.2
    · by_cases hs : e.2.size = size
      · simp [h, hs, mapGet_mapAppend]
      · simp [h, hs, mapGet_mapAppend]
    · simp [h]

theorem walk_visits_ok (entries : List (String × FileInfo)) (m : SizeMap) :
    (filepathWalk walkFn (visits entries) m).2 = ([], none) := by
  induction entries generalizing m with
  | nil => simp [visits, filepathWalk]
  | cons e rest ih =>
    have ih' := ih
    unfold visits at ih' ⊢
    rw [List.map_cons, filepathWalk_visit, ih']

theorem walk_keysNodup (steps : List WalkStep) (m : SizeMap) (hm : KeysNodup m) :
    KeysNodup (filepathWalk walkFn steps m).1 := by
  induction steps generalizing m with
  | nil => simpa [filepathWalk] using hm
  | cons s rest ih =>
    cases s with
    | failed p e => simpa [filepathWalk_failed] using hm
    | visit p info =>
      rw [filepathWalk_visit]
      by_cases h : isMp4 info
      · simpa [h] using ih _ (keysNodup_mapAppend m info.size p hm)
      · simpa [h] using ih m hm

theorem walk_ne_nil (steps : List WalkStep) (m : SizeMap) (hm : ∀ b ∈ m, b.2 ≠ []) :
    ∀ b ∈ (filepathWalk walkFn steps m).1, b.2 ≠ [] := by
  induction steps generalizing m with
  | nil => simpa [filepathWalk] using hm
  | cons s rest ih =>
    cases s with
    | failed p e => simpa [filepathWalk_failed] using hm
    | visit p info =>
      rw [filepathWalk_visit]
      by_cases h : isMp4 info
      · simpa [h] using ih _ (mapAppend_ne_nil m info.size p hm)
      · simpa [h] using ih m hm

theorem walk_visits_count (entries : List (String × FileInfo)) (m : SizeMap) (p : String) :
    List.count p (allPaths (filepathWalk walkFn (visits entries) m).1) =
      List.count p (allPaths m) +
        List.count p ((entries.filter fun e => isMp4 e.2).map Prod.fst) := by
  induction entries generalizing m with
  | nil => simp [visits, filepathWalk]
  | cons e rest ih =>
    have ih' := ih
    unfold visits at ih' ⊢
    rw [List.map_cons, filepathWalk_visit, ih', List.filter_cons]
    by_cases h : isMp4 e.2
    · simp only [h, if_true, allPaths, count_mapAppend, List.map_cons, List.count_cons,
        List.count_nil]
      omega
    · simp [h]

/-- A walk that meets every path once leaves no path twice in the size map. -/
theorem walk_count_le (steps : List WalkStep) (m : SizeMap) (p : String) :
    List.count p (allPaths (filepathWalk walkFn steps m).1) ≤
      List.count p (allPaths m) + List.count p (steps.map WalkStep.path) := by
  induction steps generalizing m with
  | nil => simp [filepathWalk]
  | cons s rest ih =>
    cases s with
    | failed q e => simp [filepathWalk_failed]
    | visit q info =>
      rw [filepathWalk_visit]
      by_cases h : isMp4 info
      · rw [if_pos h]
        have := ih (mapAppend m info.size q)
        simp only [allPaths, count_mapAppend, List.map_cons, WalkStep.path, List.count_cons,
          List.count_nil] at this ⊢
        omega
      · rw [if_neg h]
        have := ih m
        simp only [List.map_cons, WalkStep.path, List.count_cons] at this ⊢
        omega

theorem scan_nodup (steps : List WalkStep) (h : (steps.map WalkStep.path).Nodup) :
    (allPaths (scan steps)).Nodup := by
  rw [List.nodup_iff_count_le_one] at h ⊢
  intro p
  have := walk_count_le steps [] p
  have := h p
  simp only [allPaths, List.map_nil, List.flatten_nil, List.count_nil, scan] at *
  omega

theorem mem_allPaths (m : SizeMap) (p : String) :
    p ∈ allPaths m ↔ ∃ b ∈ m, p ∈ b.2 := by
  simp only [allPaths, List.mem_flatten, List.mem_map]
  constructor
  · rintro ⟨l, ⟨b, hb, rfl⟩, hp⟩
    exact ⟨b, hb, hp⟩
  · rintro ⟨b, hb, hp⟩
    exact ⟨_, ⟨b, hb, rfl⟩, hp⟩

/-! ## The extension test -/

theorem toLower_cases (c : Char) :
    c.toLower = c ∨ (65 ≤ c.toNat ∧ c.toNat ≤ 90 ∧ c.toLower = Char.ofNat (c.toNat + 32)) := by
  unfold Char.toLower
  by_cases h : c.toNat ≥ 65 ∧ c.toNat ≤ 90
  · right
    simp only [h, and_self, if_true]
  · left
    simp only [h, if_false]

theorem char_of_toNat (c : Char) (n : Nat) (h : c.toNat = n) : c = Char.ofNat n := by
  rw [← h, Char.ofNat_toNat]

theorem toLower_eq_iff (c : Char) :
    (c.toLower = '.' ↔ c = '.') ∧ (c.toLower = '4' ↔ c = '4') ∧
      (c.toLower = 'm' ↔ c = 'm' ∨ c = 'M') ∧ (c.toLower = 'p' ↔ c = 'p' ∨ c = 'P') := by
  rcases toLower_cases c with h | ⟨h1, h2, h3⟩
  · rw [h]
    refine ⟨Iff.rfl, Iff.rfl, ⟨Or.inl, ?_⟩, ⟨Or.inl, ?_⟩⟩
    · rintro (h' | h')
      · exact h'
      · rw [h'] at h
        exact absurd h (by decide)
    · rintro (h' | h')
      · exact h'
      · rw [h'] at h
        exact absurd h (by decide)
  · rw [h3]
    generalize hn : c.toNat = n at h1 h2
    have hc := char_of_toNat c n hn
    subst hc
    clear hn h3
    interval_cases n <;> decide

theorem isMp4_iff (info : FileInfo) :
    isMp4 info = true ↔
      info.isDir = false ∧ filepathExt info.name ∈ [".mp4", ".mP4", ".Mp4", ".MP4"] := by
  have key : ∀ l : List Char, l.map Char.toLower = ['.', 'm', 'p', '4'] ↔
      l = ['.', 'm', 'p', '4'] ∨ l = ['.', 'm', 'P', '4'] ∨ l = ['.', 'M', 'p', '4'] ∨
        l = ['.', 'M', 'P', '4'] := by
    intro l
    constructor
    · intro h
      rcases l with _ | ⟨a, _ | ⟨b, _ | ⟨c, _ | ⟨d, _ | ⟨e, l⟩⟩⟩⟩⟩
      · simp at h
      · simp at h
      · simp at h
      · simp at h
      · simp only [List.map_cons, List.map_nil, List.cons.injEq, and_true] at h
        obtain ⟨ha, hb, hc, hd⟩ := h
        have ha' := (toLower_eq_iff a).1.1 ha
        have hd' := (toLower_eq_iff d).2.1.1 hd
        have hb' := (toLower_eq_iff b).2.2.1.1 hb
        have hc' := (toLower_eq_iff c).2.2.2.1 hc
        subst ha' hd'
        rcases hb' with rfl | rfl <;> rcases hc' with rfl | rfl <;> simp
      · simp at h
    · rintro (rfl | rfl | rfl | rfl) <;> decide
  have hs : ∀ s : String, stringsToLower s = ".mp4" ↔
      s ∈ [".mp4", ".mP4", ".Mp4", ".MP4"] := by
    intro s
    have h1 : stringsToLower s = ".mp4" ↔ s.data.map Char.toLower = ['.', 'm', 'p', '4'] := by
      unfold stringsToLower
      constructor
      · intro h
        exact congrArg String.data h
      · intro h
        rw [h]
    rw [h1, key]
    simp only [List.mem_cons, List.mem_singleton, List.not_mem_nil, or_false, String.ext_iff]
  unfold isMp4
  simp only [Bool.and_eq_true, Bool.not_eq_true', decide_eq_true_eq, hs]

theorem extLoop_dot (rev acc t : List Char) (h : extLoop rev acc = '.' :: t) :
    ∃ k before, rev = k ++ '.' :: before ∧ t = k.reverse ++ acc := by
  induction rev generalizing acc with
  | nil => simp [extLoop] at h
  | cons c rest ih =>
    unfold extLoop at h
    by_cases h1 : c = '/'
    · simp [h1] at h
    · by_cases h2 : c = '.'
      · subst h2
        simp only [h1, if_false, if_true, List.cons.injEq, true_and] at h
        exact ⟨[], rest, rfl, by simp [h]⟩
      · simp only [h1, h2, if_false] at h
        obtain ⟨k, before, hk, ht⟩ := ih (c :: acc) h
        exact ⟨c :: k, before, by simp [hk], by simp [ht]⟩

theorem extLoop_suffix (k before acc : List Char) (hk : ∀ c ∈ k, c ≠ '/' ∧ c ≠ '.') :
    extLoop (k ++ '.' :: before) acc = '.' :: (k.reverse ++ acc) := by
  induction k generalizing acc with
  | nil => simp [extLoop]
  | cons c rest ih =>
    have hc := hk c (List.mem_cons_self _ _)
    have := ih (c :: acc) (fun x hx => hk x (List.mem_cons_of_mem _ hx))
    simp only [List.cons_append, extLoop, hc.1, hc.2, if_false]
    show extLoop (rest ++ '.' :: before) (c :: acc) = _
    rw [this]
    simp

/-- The test of the walk callback accepts exactly the names of files, not directories, that end
in `.mp4` written in any mix of upper-case and lower-case letters. -/
theorem isMp4_iff_suffix (info : FileInfo) :
    isMp4 info = true ↔
      info.isDir = false ∧ ∃ stem : List Char, ∃ ext ∈ [".mp4", ".mP4", ".Mp4", ".MP4"],
        info.name.data = stem ++ String.data ext := by
  rw [isMp4_iff]
  constructor
  · rintro ⟨hd, he⟩
    refine ⟨hd, ?_⟩
    have hdata : ∃ t, extLoop info.name.data.reverse [] = '.' :: t ∧
        String.mk ('.' :: t) ∈ [".mp4", ".mP4", ".Mp4", ".MP4"] := by
      unfold filepathExt at he
      generalize extLoop info.name.data.reverse [] = r at he
      simp only [List.mem_cons, List.mem_singleton, List.not_mem_nil, or_false,
        String.ext_iff] at he
      rcases he with h | h | h | h <;> subst h <;> exact ⟨_, rfl, by decide⟩
    obtain ⟨t, ht, hmem⟩ := hdata
    obtain ⟨k, before, hk, htk⟩ := extLoop_dot _ _ _ ht
    have hname : info.name.data = before.reverse ++ '.' :: t := by
      have := congrArg List.reverse hk
      simp only [List.reverse_reverse, List.reverse_append, List.reverse_cons,
        List.append_assoc, List.singleton_append] at this
      rw [this, htk]
      simp
    exact ⟨before.reverse, _, hmem, hname⟩
  · rintro ⟨hd, stem, ext, hext, hname⟩
    refine ⟨hd, ?_⟩
    have hrev : ∀ k : List Char, (∀ c ∈ k, c ≠ '/' ∧ c ≠ '.') →
        info.name.data = stem ++ '.' :: k.reverse →
        filepathExt info.name = String.mk ('.' :: k.reverse) := by
      intro k hk hn
      unfold filepathExt
      rw [hn]
      simp only [List.reverse_append, List.reverse_cons, List.reverse_reverse,
        List.append_assoc, List.singleton_append]
      rw [extLoop_suffix k stem.reverse [] hk]
      simp
    simp only [List.mem_cons, List.mem_singleton, List.not_mem_nil, or_false] at hext
    rcases hext with rfl | rfl | rfl | rfl
    · rw [hrev ['4', 'p', 'm'] (by decide) hname]
      decide
    · rw [hrev ['4', 'P', 'm'] (by decide) hname]
      decide
    · rw [hrev ['4', 'p', 'M'] (by decide) hname]
      decide
    · rw [hrev ['4', 'P', 'M'] (by decide) hname]
      decide

/-- C8: the scan buckets exactly the filtered files by size.  For every sequence of walked
entries without errors the walk ends without an error; the bucket of a size holds, in walk order,
the paths of the entries of that size that are not directories and whose lower-cased extension is
`.mp4`; the keys of the size map are pairwise distinct and no bucket is empty; a path is in the
size map exactly when it is the path of such an entry, as often as the walk lists it, hence once
when the walk lists every path once.  The test accepts exactly the names of files, not
directories, that end in `.mp4` in any mix of upper-case and lower-case letters: `.MP4` and
`.Mp4` are accepted, other extensions are rejected. -/
theorem C8_scan_buckets_filtered_files_by_size (entries : List (String × FileInfo)) :
    (filepathWalk walkFn (visits entries) []).2 = ([], none) ∧
      (∀ size, mapGet (scan (visits entries)) size =
        (entries.filter fun e => isMp4 e.2 && decide (e.2.size = size)).map Prod.fst) ∧
      KeysNodup (scan (visits entries)) ∧
      (∀ b ∈ scan (visits entries), b.2 ≠ [] ∧ b.2 = mapGet (scan (visits entries)) b.1) ∧
      (∀ p, p ∈ allPaths (scan (visits entries)) ↔
        ∃ e ∈ entries, e.1 = p ∧ e.2.isDir = false ∧
          stringsToLower (filepathExt e.2.name) = ".mp4") ∧
      (∀ p, List.count p (allPaths (scan (visits entries))) =
        List.count p ((entries.filter fun e => isMp4 e.2).map Prod.fst)) ∧
      ((entries.map Prod.fst).Nodup → (allPaths (scan (visits entries))).Nodup) ∧
      (∀ info, isMp4 info = true ↔
        info.isDir = false ∧ ∃ stem : List Char, ∃ ext ∈ [".mp4", ".mP4", ".Mp4", ".MP4"],
          info.name.data = stem ++ String.data ext) ∧
      (isMp4 ⟨"clip.MP4", false, 1⟩ = true ∧ isMp4 ⟨"clip.Mp4", false, 1⟩ = true ∧
        isMp4 ⟨"a.b.mp4", false, 1⟩ = true ∧ isMp4 ⟨"clip.mp3", false, 1⟩ = false ∧
        isMp4 ⟨"clip.mp4.bak", false, 1⟩ = false ∧ isMp4 ⟨"mp4", false, 1⟩ = false ∧
        isMp4 ⟨"clip.mp4", true, 1⟩ = false) := by
  have hkeys : KeysNodup (scan (visits entries)) := walk_keysNodup _ [] (by simp [KeysNodup])
  have hget : ∀ size, mapGet (scan (visits entries)) size =
      (entries.filter fun e => isMp4 e.2 && decide (e.2.size = size)).map Prod.fst := by
    intro size
    simpa [scan, mapGet] using walk_visits_get entries [] size
  have hcount : ∀ p, List.count p (allPaths (scan (visits entries))) =
      List.count p ((entries.filter fun e => isMp4 e.2).map Prod.fst) := by
    intro p
    simpa [scan, allPaths] using walk_visits_count entries [] p
  refine ⟨walk_visits_ok entries [], hget, hkeys, ?_, ?_, hcount, ?_, isMp4_iff_suffix,
    by decide⟩
  · intro b hb
    exact ⟨walk_ne_nil _ [] (by simp) b hb, (mapGet_of_mem _ b.1 b.2 hkeys hb).symm⟩
  · intro p
    rw [← List.count_pos_iff, hcount, List.count_pos_iff]
    simp only [List.mem_map, List.mem_filter, isMp4, Bool.and_eq_true, Bool.not_eq_true',
      decide_eq_true_eq]
    constructor
    · rintro ⟨e, ⟨he, h1, h2⟩, rfl⟩
      exact ⟨e, he, rfl, h1, h2⟩
    · rintro ⟨e, he, rfl, h1, h2⟩
      exact ⟨e, ⟨he, h1, h2⟩, rfl⟩
  · intro hn
    rw [List.nodup_iff_count_le_one] at hn ⊢
    intro p
    rw [hcount]
    have h1 : List.count p ((entries.filter fun e => isMp4 e.2).map Prod.fst) ≤
        List.count p (entries.map Prod.fst) :=
      ((List.filter_sublist entries).map Prod.fst).count_le p
    have := hn p
    omega

/-- C8, an instance: the walk of the example directory `v`. -/
theorem C8_scan_buckets_filtered_files_by_size_witness :
    scan (exWalk "v") = [(10, ["v/a.mp4", "v/b.MP4", "v/d.mp4"]), (20, ["v/e.mp4"])] ∧
      (allPaths (scan (exWalk "v"))).Nodup :=
  ⟨by decide,
    (C8_scan_buckets_filtered_files_by_size
      [("v", ⟨"v", true, 4096⟩), ("v/a.mp4", ⟨"a.mp4", false, 10⟩),
        ("v/b.MP4", ⟨"b.MP4", false, 10⟩), ("v/c.txt", ⟨"c.txt", false, 10⟩),
        ("v/d.mp4", ⟨"d.mp4", false, 10⟩), ("v/e.mp4", ⟨"e.mp4", false, 20⟩)]).2.2.2.2.2.2.1
      (by decide)⟩

/-! ## The run of `main` -/

theorem main_eq (env : Env) (args stdin : List String) :
    main env args stdin =
      if dirPathOf args stdin = "" then
        (dirEvents args stdin ++ [Event.noDir, Event.sleep 3], afterDir args stdin)
      else
        match (filepathWalk walkFn (env.walk (dirPathOf args stdin)) []).2.2 with
        | some err =>
          (dirEvents args stdin ++
            (filepathWalk walkFn (env.walk (dirPathOf args stdin)) []).2.1 ++
            [Event.errWalk (dirPathOf args stdin) err, Event.sleep 3], afterDir args stdin)
        | none =>
          (dirEvents args stdin ++
            (filepathWalk walkFn (env.walk (dirPathOf args stdin)) []).2.1 ++
            (afterWalk env (scan (env.walk (dirPathOf args stdin))) (afterDir args stdin)).1,
            (afterWalk env (scan (env.walk (dirPathOf args stdin))) (afterDir args stdin)).2) := by
  unfold main dirPathOf dirEvents afterDir afterWalk scan
  by_cases h : args.length < 2
  · simp only [h, dite_true, if_true]
    split
    · rfl
    · split <;> rename_i heq <;> simp [heq]
  · have h1 : 1 < args.length := by omega
    simp only [h, dite_false, if_false, List.getD_eq_getElem _ _ h1]
    split
    · rfl
    · split <;> rename_i heq <;> simp [heq]

theorem bulkAnswers_append (a b : List Event) :
    bulkAnswers (a ++ b) = bulkAnswers a ++ bulkAnswers b := by
  induction a with
  | nil => rfl
  | cons e t ih => cases e <;> simp [bulkAnswers, ih]

theorem mem_bulkAnswers (tr : List Event) (a : String) :
    a ∈ bulkAnswers tr ↔ Event.askBulk a ∈ tr := by
  induction tr with
  | nil => simp [bulkAnswers]
  | cons e t ih => cases e <;> simp [bulkAnswers, ih]

theorem quiet_projections (tr : List Event) (h : ∀ e ∈ tr, isQuiet e = true) :
    hashCalls tr = [] ∧ removeCalls tr = [] ∧ yesFiles tr = [] ∧ askedFiles tr = [] ∧
      removedFiles tr = [] ∧ bulkAnswers tr = [] := by
  induction tr with
  | nil => simp [hashCalls, removeCalls, yesFiles, askedFiles, removedFiles, bulkAnswers]
  | cons e t ih =>
    have ht := ih (fun e he => h e (List.mem_cons_of_mem _ he))
    have he := h e (List.mem_cons_self _ _)
    cases e <;>
      simp_all [hashCalls, removeCalls, yesFiles, askedFiles, removedFiles, bulkAnswers, isQuiet]

theorem walk_quiet (steps : List WalkStep) (m : SizeMap) :
    ∀ e ∈ (filepathWalk walkFn steps m).2.1, isQuiet e = true := by
  induction steps generalizing m with
  | nil => simp [filepathWalk]
  | cons s rest ih =>
    cases s with
    | failed p e => simp [filepathWalk_failed, isQuiet]
    | visit p info =>
      rw [filepathWalk_visit]
      exact ih _

theorem table_quiet (env : Env) (sizeMap : SizeMap) :
    ∀ e ∈ printDuplicatesInTable env sizeMap, isQuiet e = true := by
  intro e he
  simp only [printDuplicatesInTable, List.mem_append, List.mem_cons, List.mem_flatten,
    List.mem_map, List.mem_singleton, List.not_mem_nil, or_false] at he
  rcases he with (rfl | rfl) | ⟨l, ⟨size, _, rfl⟩, he⟩
  · rfl
  · rfl
  · split at he
    · simp only [List.mem_append, List.mem_map, List.mem_singleton] at he
      rcases he with ⟨f, _, rfl⟩ | rfl <;> rfl
    · simp at he

theorem dirEvents_quiet (args stdin : List String) :
    ∀ e ∈ dirEvents args stdin, isQuiet e = true := by
  intro e he
  unfold dirEvents at he
  split at he
  · simp only [List.mem_singleton] at he
    subst he
    rfl
  · simp at he

theorem hashFiles_noBulk (env : Env) (files : List String) (m : HashMap) :
    bulkAnswers (hashFiles env files m).1 = [] := by
  induction files generalizing m with
  | nil => simp [hashFiles, bulkAnswers]
  | cons f rest ih =>
    unfold hashFiles
    cases hf : getFileHash env f <;> simp [bulkAnswers, ih]

theorem deleteLoop_noBulk (env : Env) (i : Nat) (dups stdin : List String) :
    bulkAnswers (deleteLoop env i dups stdin).1 = [] := by
  induction dups generalizing i stdin with
  | nil => simp [deleteLoop, bulkAnswers]
  | cons f rest ih =>
    unfold deleteLoop
    by_cases hi : i = 0
    · simp [hi, bulkAnswers, ih]
    · simp only [hi, if_false]
      by_cases hy : (scanln stdin).1 = "y" ∨ (scanln stdin).1 = "Y"
      · simp only [hy, if_true]
        cases hr : env.osRemove f <;> simp [bulkAnswers, ih]
      · simp [hy, bulkAnswers, ih]

theorem groupsLoop_noBulk (env : Env) (gs : List (String × List String)) (stdin : List String) :
    bulkAnswers (groupsLoop env gs stdin).1 = [] := by
  induction gs generalizing stdin with
  | nil => simp [groupsLoop, bulkAnswers]
  | cons g rest ih =>
    unfold groupsLoop
    split
    · simp [bulkAnswers, bulkAnswers_append, deleteLoop_noBulk, ih]
    · exact ih stdin

theorem deleteDuplicates_noBulk (env : Env) (sizeMap : SizeMap) (stdin : List String) :
    bulkAnswers (deleteDuplicates env sizeMap stdin).1 = [] := by
  unfold deleteDuplicates
  generalize env.rangeSize Site.delete sizeMap = bs
  induction bs generalizing stdin with
  | nil => simp [bucketsLoop, bulkAnswers]
  | cons b rest ih =>
    unfold bucketsLoop
    split
    · simp [bulkAnswers, bulkAnswers_append, hashFiles_noBulk, groupsLoop_noBulk, ih]
    · exact ih stdin

theorem filepathWalk_abort (entries : List (String × FileInfo)) (p err : String)
    (post : List WalkStep) (m : SizeMap) :
    filepathWalk walkFn (visits entries ++ WalkStep.failed p err :: post) m =
      ((filepathWalk walkFn (visits entries) m).1, [Event.errAccess p err], some err) := by
  induction entries generalizing m with
  | nil =>
    simp only [visits, List.map_nil, List.nil_append]
    rw [filepathWalk_failed]
    simp [filepathWalk]
  | cons e rest ih =>
    have ih' := ih
    unfold visits at ih' ⊢
    rw [List.map_cons, List.cons_append, filepathWalk_visit, ih', filepathWalk_visit]

/-- C5 (amended): a filesystem error on a path during traversal is printed and the walk callback
returns it, which ends the walk: the size map holds the `.mp4` files met before the failing path
and none met after it, and `main` prints the walk error, sleeps and returns without the report
and without the deletion prompt. -/
theorem C5_walk_error_ends_the_scan (env : Env) (args stdin : List String)
    (entries : List (String × FileInfo)) (p err : String) (post : List WalkStep)
    (hdir : dirPathOf args stdin ≠ "")
    (hwalk : env.walk (dirPathOf args stdin) =
      visits entries ++ WalkStep.failed p err :: post) :
    walkFn (scan (visits entries)) (WalkStep.failed p err) =
        (scan (visits entries), [Event.errAccess p err], some err) ∧
      filepathWalk walkFn (env.walk (dirPathOf args stdin)) [] =
        (scan (visits entries), [Event.errAccess p err], some err) ∧
      main env args stdin =
        (dirEvents args stdin ++ [Event.errAccess p err,
          Event.errWalk (dirPathOf args stdin) err, Event.sleep 3], afterDir args stdin) ∧
      Event.reportHeader ∉ (main env args stdin).1 ∧
      (∀ a, Event.askBulk a ∉ (main env args stdin).1) := by
  have hw : filepathWalk walkFn (env.walk (dirPathOf args stdin)) [] =
      (scan (visits entries), [Event.errAccess p err], some err) := by
    rw [hwalk, filepathWalk_abort]
    rfl
  have hmain : main env args stdin =
      (dirEvents args stdin ++ [Event.errAccess p err,
        Event.errWalk (dirPathOf args stdin) err, Event.sleep 3], afterDir args stdin) := by
    rw [main_eq, if_neg hdir, hw]
    simp
  refine ⟨rfl, hw, hmain, ?_, ?_⟩
  · rw [hmain]
    intro h
    simp only [List.mem_append, List.mem_cons, List.mem_singleton, List.not_mem_nil, or_false]
      at h
    rcases h with h | h | h | h
    · unfold dirEvents at h
      split at h <;> simp at h
    · cases h
    · cases h
    · cases h
  · intro a
    rw [hmain]
    intro h
    simp only [List.mem_append, List.mem_cons, List.mem_singleton, List.not_mem_nil, or_false]
      at h
    rcases h with h | h | h | h
    · have := dirEvents_quiet args stdin _ h
      simp [isQuiet] at this
    · cases h
    · cases h
    · cases h

/-- C5, an instance: the example directory `locked`, whose entry `a` cannot be read. -/
theorem C5_walk_error_ends_the_scan_witness :
    dirPathOf ["cleaner", "locked"] ["y"] ≠ "" ∧
      main exEnv ["cleaner", "locked"] ["y"] =
        ([Event.errAccess "locked/a" "permission denied",
          Event.errWalk "locked" "permission denied", Event.sleep 3], ["y"]) :=
  ⟨by decide,
    (C5_walk_error_ends_the_scan exEnv ["cleaner", "locked"] ["y"]
      [("locked", ⟨"locked", true, 4096⟩)] "locked/a" "permission denied"
      [WalkStep.visit "locked/b.mp4" ⟨"b.mp4", false, 10⟩,
        WalkStep.visit "locked/c.mp4" ⟨"c.mp4", false, 10⟩]
      (by decide) (by decide)).2.2.1⟩

/-- C5 as stated fails on the example directory `locked`: the callback returns the error it was
given, the walk ends there, the two `.mp4` files that come after the failing path are not
bucketed, and `main` returns without the report and without the deletion prompt. -/
theorem C5_counterexample :
    (walkFn [] (WalkStep.failed "locked/a" "permission denied")).2.2 =
        some "permission denied" ∧
      scan (exWalk "locked") = [] ∧
      main exEnv ["cleaner", "locked"] ["y", "y"] =
        ([Event.errAccess "locked/a" "permission denied",
          Event.errWalk "locked" "permission denied", Event.sleep 3], ["y", "y"]) := by
  decide

theorem asked_twice (tr : List Event) (p a a' : String) (h : Event.askDelete p a ∈ tr)
    (h' : Event.askDelete p a' ∈ tr) (hne : a ≠ a') : 2 ≤ List.count p (askedFiles tr) := by
  induction tr with
  | nil => simp at h
  | cons e t ih =>
    have hmono : List.count p (askedFiles t) ≤ List.count p (askedFiles (e :: t)) := by
      cases e <;> simp [askedFiles, List.count_cons]
    rcases List.mem_cons.1 h with h1 | h1
    · rcases List.mem_cons.1 h' with h2 | h2
      · rw [← h1] at h2
        simp only [Event.askDelete.injEq, true_and] at h2
        exact absurd h2.symm hne
      · subst h1
        have : p ∈ askedFiles t := (mem_askedFiles t p).2 ⟨a', h2⟩
        have := List.count_pos_iff.2 this
        simp only [askedFiles, List.count_cons_self]
        omega
    · rcases List.mem_cons.1 h' with h2 | h2
      · subst h2
        have : p ∈ askedFiles t := (mem_askedFiles t p).2 ⟨a, h1⟩
        have := List.count_pos_iff.2 this
        simp only [askedFiles, List.count_cons_self]
        omega
      · have := ih h1 h2
        omega

/-- With no path twice in the size map, a file whose prompt got another answer than `y` or `Y`
is not passed to `os.Remove`. -/
theorem refused_not_removed (env : Env) (hf : env.Fair) (sizeMap : SizeMap)
    (hn : (allPaths sizeMap).Nodup) (stdin : List String) (p a : String)
    (h : Event.askDelete p a ∈ (deleteDuplicates env sizeMap stdin).1)
    (hno : ¬ (a = "y" ∨ a = "Y")) : p ∉ removeCalls (deleteDuplicates env sizeMap stdin).1 := by
  intro hr
  have hg := (bucketsLoop_trace env (env.rangeSize Site.delete sizeMap) stdin).2.2.2
  have hy : p ∈ yesFiles (deleteDuplicates env sizeMap stdin).1 := by
    unfold deleteDuplicates at hr ⊢
    rwa [hg.1] at hr
  obtain ⟨a', h', hyes⟩ := (mem_yesFiles _ p).1 hy
  have hne : a ≠ a' := by
    rintro rfl
    exact hno hyes
  have h2 := asked_twice _ p a a' h h' hne
  have := count_first_asked env hf sizeMap hn stdin p
  omega

/-- The parts of the trace of `main` read off: calls and prompts all come from
`deleteDuplicates`, which runs only after the bulk answer `y` or `Y`. -/
theorem main_trace (env : Env) (args stdin : List String) :
    (hashCalls (main env args stdin).1 = [] ∧ removeCalls (main env args stdin).1 = [] ∧
        yesFiles (main env args stdin).1 = [] ∧ askedFiles (main env args stdin).1 = [] ∧
        bulkAnswers (main env args stdin).1 = []) ∨
      ∃ sizeMap inp c, sizeMap = scan (env.walk (dirPathOf args stdin)) ∧
        bulkAnswers (main env args stdin).1 = [c] ∧
        ((¬ (c = "y" ∨ c = "Y") ∧ hashCalls (main env args stdin).1 = [] ∧
            removeCalls (main env args stdin).1 = [] ∧ yesFiles (main env args stdin).1 = [] ∧
            askedFiles (main env args stdin).1 = []) ∨
          ((c = "y" ∨ c = "Y") ∧
            hashCalls (main env args stdin).1 = hashCalls (deleteDuplicates env sizeMap inp).1 ∧
            removeCalls (main env args stdin).1 =
              removeCalls (deleteDuplicates env sizeMap inp).1 ∧
            yesFiles (main env args stdin).1 = yesFiles (deleteDuplicates env sizeMap inp).1 ∧
            askedFiles (main env args stdin).1 =
              askedFiles (deleteDuplicates env sizeMap inp).1 ∧
            ∀ p a, Event.askDelete p a ∈ (main env args stdin).1 →
              Event.askDelete p a ∈ (deleteDuplicates env sizeMap inp).1)) := by
  have hd := quiet_projections _ (dirEvents_quiet args stdin)
  have hw := quiet_projections _ (walk_quiet (env.walk (dirPathOf args stdin)) [])
  have ht := fun m => quiet_projections _ (table_quiet env m)
  rw [main_eq]
  split
  · left
    simp [hashCalls_append, removeCalls_append, yesFiles_append, askedFiles_append,
      bulkAnswers_append, hd, hashCalls, removeCalls, yesFiles, askedFiles, bulkAnswers]
  · split
    · left
      simp [hashCalls_append, removeCalls_append, yesFiles_append, askedFiles_append,
        bulkAnswers_append, hd, hw, hashCalls, removeCalls, yesFiles, askedFiles, bulkAnswers]
    · right
      refine ⟨_, (scanln (afterDir args stdin)).2, (scanln (afterDir args stdin)).1, rfl, ?_⟩
      have hnb := deleteDuplicates_noBulk env (scan (env.walk (dirPathOf args stdin)))
        (scanln (afterDir args stdin)).2
      have htm := ht (scan (env.walk (dirPathOf args stdin)))
      by_cases hc : (scanln (afterDir args stdin)).1 = "y" ∨ (scanln (afterDir args stdin)).1 = "Y"
      · simp only [afterWalk, hc, if_true]
        generalize printDuplicatesInTable env (scan (env.walk (dirPathOf args stdin))) = T
          at htm ⊢
        refine ⟨?_, Or.inr ⟨trivial, ?_, ?_, ?_, ?_, ?_⟩⟩
        · simp [bulkAnswers_append, hd, hw, htm, hnb, bulkAnswers]
        · simp [hashCalls_append, hd, hw, htm, hashCalls]
        · simp [removeCalls_append, hd, hw, htm, removeCalls]
        · simp [yesFiles_append, hd, hw, htm, yesFiles]
        · simp [askedFiles_append, hd, hw, htm, askedFiles]
        · intro p a h
          simp only [List.mem_append, List.mem_cons, List.mem_singleton,
            List.not_mem_nil, or_false] at h
          rcases h with (h | h) | ((((h | h) | h) | h) | h)
          · have := dirEvents_quiet args stdin _ h
            simp [isQuiet] at this
          · have := walk_quiet _ _ _ h
            simp [isQuiet] at this
          · cases h
          · have := (mem_askedFiles T p).2 ⟨a, h⟩
            rw [htm.2.2.2.1] at this
            simp at this
          · rcases h with h | h <;> cases h
          · exact h
          · cases h
      · simp only [afterWalk, hc, if_false]
        generalize printDuplicatesInTable env (scan (env.walk (dirPathOf args stdin))) = T
          at htm ⊢
        refine ⟨?_, Or.inl ⟨not_false, ?_, ?_, ?_, ?_⟩⟩
        · simp [bulkAnswers_append, hd, hw, htm, bulkAnswers]
        · simp [hashCalls_append, hd, hw, htm, hashCalls]
        · simp [removeCalls_append, hd, hw, htm, removeCalls]
        · simp [yesFiles_append, hd, hw, htm, yesFiles]
        · simp [askedFiles_append, hd, hw, htm, askedFiles]

/-- C4: deletion is gated by both prompts.  In every run of `main` the calls of `os.Remove` are
exactly, in order, the files whose own prompt was answered `y` or `Y`; a file is passed to
`os.Remove` (and so removed) only if the bulk prompt was answered `y` or `Y` and its own prompt
was answered `y` or `Y`; with any other answer to the bulk prompt no file is hashed or passed to
`os.Remove`; and, the walk listing every path once, a file whose prompt got any other answer is
not passed to `os.Remove`. -/
theorem C4_deletion_gated_by_both_prompts (env : Env) (args stdin : List String) :
    removeCalls (main env args stdin).1 = yesFiles (main env args stdin).1 ∧
      (∀ p ∈ removedFiles (main env args stdin).1, p ∈ removeCalls (main env args stdin).1) ∧
      (∀ p ∈ removeCalls (main env args stdin).1,
        (∃ c, Event.askBulk c ∈ (main env args stdin).1 ∧ (c = "y" ∨ c = "Y")) ∧
          ∃ a, Event.askDelete p a ∈ (main env args stdin).1 ∧ (a = "y" ∨ a = "Y")) ∧
      (∀ c, Event.askBulk c ∈ (main env args stdin).1 → ¬ (c = "y" ∨ c = "Y") →
        hashCalls (main env args stdin).1 = [] ∧ removeCalls (main env args stdin).1 = []) ∧
      (env.Fair → ((env.walk (dirPathOf args stdin)).map WalkStep.path).Nodup →
        ∀ p a, Event.askDelete p a ∈ (main env args stdin).1 → ¬ (a = "y" ∨ a = "Y") →
          p ∉ removeCalls (main env args stdin).1) := by
  rcases main_trace env args stdin with ⟨hh, hr, hy, ha, hb⟩ | ⟨sizeMap, inp, c, hsm, hb, hcase⟩
  · refine ⟨by rw [hr, hy], fun p hp => removedFiles_subset_calls _ _ hp, ?_, ?_, ?_⟩
    · intro p hp
      rw [hr] at hp
      simp at hp
    · intro c _ _
      exact ⟨hh, hr⟩
    · intro _ _ p a _ _ hp
      rw [hr] at hp
      simp at hp
  · have hbulk : ∀ c', Event.askBulk c' ∈ (main env args stdin).1 ↔ c' = c := by
      intro c'
      rw [← mem_bulkAnswers, hb]
      simp
    rcases hcase with ⟨hno, hh, hr, hy, ha⟩ | ⟨hyes, hh, hr, hy, ha, hmem⟩
    · refine ⟨by rw [hr, hy], fun p hp => removedFiles_subset_calls _ _ hp, ?_, ?_, ?_⟩
      · intro p hp
        rw [hr] at hp
        simp at hp
      · intro _ _ _
        exact ⟨hh, hr⟩
      · intro _ _ p a _ _ hp
        rw [hr] at hp
        simp at hp
    · have hg := (bucketsLoop_trace env (env.rangeSize Site.delete sizeMap) inp).2.2.2
      have hgate : removeCalls (main env args stdin).1 = yesFiles (main env args stdin).1 := by
        rw [hr, hy]
        unfold deleteDuplicates
        exact hg.1
      refine ⟨hgate, fun p hp => removedFiles_subset_calls _ _ hp, ?_, ?_, ?_⟩
      · intro p hp
        refine ⟨⟨c, (hbulk c).2 rfl, hyes⟩, ?_⟩
        rw [hgate] at hp
        exact (mem_yesFiles _ p).1 hp
      · intro c' hc' hno
        rw [(hbulk c').1 hc'] at hno
        exact absurd hyes hno
      · intro hf hn p a hpa hno
        rw [hr]
        have hnd : (allPaths sizeMap).Nodup := by
          rw [hsm]
          exact scan_nodup _ hn
        exact refused_not_removed env hf sizeMap hnd inp p a (hmem p a hpa) hno

/-- C4, two instances: the example directory `w` with the bulk answer `yes`, after which nothing
is hashed or removed, and with the bulk answer `y` and the file answer `n`, after which `w/b.mp4`
is not passed to `os.Remove`. -/
theorem C4_deletion_gated_by_both_prompts_witness :
    (Event.askBulk "yes" ∈ (main exEnv ["cleaner", "w"] ["yes", "y"]).1 ∧
        hashCalls (main exEnv ["cleaner", "w"] ["yes", "y"]).1 = [] ∧
        removeCalls (main exEnv ["cleaner", "w"] ["yes", "y"]).1 = []) ∧
      (((exEnv.walk (dirPathOf ["cleaner", "w"] ["y", "n"])).map WalkStep.path).Nodup ∧
        Event.askDelete "w/b.mp4" "n" ∈ (main exEnv ["cleaner", "w"] ["y", "n"]).1 ∧
        "w/b.mp4" ∉ removeCalls (main exEnv ["cleaner", "w"] ["y", "n"]).1) :=
  ⟨⟨by decide,
      (C4_deletion_gated_by_both_prompts exEnv ["cleaner", "w"] ["yes", "y"]).2.2.2.1 "yes"
        (by decide) (by decide)⟩,
    ⟨by decide, by decide,
      (C4_deletion_gated_by_both_prompts exEnv ["cleaner", "w"] ["y", "n"]).2.2.2.2 exEnv_fair
        (by decide) "w/b.mp4" "n" (by decide) (by decide)⟩⟩

/-! ## The space-savings figure -/

theorem wrap64_emod (a : Int) : wrap64 a % 2 ^ 64 = a % 2 ^ 64 := by
  unfold wrap64
  norm_num
  omega

theorem wrap64_congr (a b : Int) (h : a % 2 ^ 64 = b % 2 ^ 64) : wrap64 a = wrap64 b := by
  unfold wrap64
  norm_num at h ⊢
  omega

theorem wrap64_step (t n s : Int) :
    wrap64 (wrap64 t + wrap64 (wrap64 n * s)) = wrap64 (t + n * s) := by
  apply wrap64_congr
  rw [Int.add_emod, wrap64_emod, wrap64_emod, Int.mul_emod, wrap64_emod, ← Int.mul_emod,
    ← Int.add_emod]

theorem savedLoop_eq (env : Env) (bs : List (Int × List String))
    (hsize : ∀ b ∈ bs, ∀ p ∈ b.2, getFileSize env p = b.1) (t : Int) :
    savedLoop env bs (wrap64 t) = wrap64 (t + bucketSurplus bs) := by
  induction bs generalizing t with
  | nil => simp [savedLoop, bucketSurplus]
  | cons b rest ih =>
    obtain ⟨size, files⟩ := b
    have hrest : ∀ b ∈ rest, ∀ p ∈ b.2, getFileSize env p = b.1 :=
      fun b hb => hsize b (List.mem_cons_of_mem _ hb)
    unfold savedLoop
    by_cases hl : files.length > 1
    · simp only [hl, dite_true]
      have h0 : getFileSize env files[0] = size :=
        hsize (size, files) (List.mem_cons_self _ _) _ (List.getElem_mem _)
      rw [h0, wrap64_step, ih hrest]
      congr 1
      have : ((files.length - 1 : Nat) : Int) = (files.length : Int) - 1 := by omega
      simp only [bucketSurplus, List.map_cons, List.sum_cons, this]
      ring
    · simp only [hl, dite_false]
      rw [ih hrest]
      have : files.length - 1 = 0 := by omega
      simp [bucketSurplus, this]

theorem hashFiles_same (env : Env) (d : String) (files : List String)
    (h : ∀ p ∈ files, getFileHash env p = .ok d) (g : List String) :
    (hashFiles env files [(d, g)]).2 = [(d, g ++ files)] := by
  induction files generalizing g with
  | nil => simp [hashFiles]
  | cons f rest ih =>
    unfold hashFiles
    rw [h f (List.mem_cons_self _ _)]
    simp only [mapAppend, if_true]
    rw [ih (fun p hp => h p (List.mem_cons_of_mem _ hp))]
    simp

theorem groupsOf_same (env : Env) (d : String) (f : String) (rest : List String)
    (h : ∀ p ∈ f :: rest, getFileHash env p = .ok d) :
    groupsOf env (f :: rest) = [(d, f :: rest)] := by
  unfold groupsOf
  conv => lhs; unfold hashFiles
  rw [h f (List.mem_cons_self _ _)]
  simp only [mapAppend]
  rw [hashFiles_same env d rest (fun p hp => h p (List.mem_cons_of_mem _ hp))]
  simp

theorem sum_sizes_const (env : Env) (size : Int) (l : List String)
    (h : ∀ p ∈ l, getFileSize env p = size) :
    (l.map (getFileSize env)).sum = (l.length : Int) * size := by
  induction l with
  | nil => simp
  | cons x xs ih =>
    simp only [List.map_cons, List.sum_cons, List.length_cons]
    rw [h x (List.mem_cons_self _ _), ih (fun p hp => h p (List.mem_cons_of_mem _ hp))]
    push_cast
    ring

theorem promptTargets_bytes (env : Env) (hf : env.Fair) (bs : List (Int × List String))
    (hsize : ∀ b ∈ bs, ∀ p ∈ b.2, getFileSize env p = b.1)
    (hsame : ∀ b ∈ bs, ∃ d, ∀ p ∈ b.2, getFileHash env p = .ok d) :
    ((promptTargets env bs).map (getFileSize env)).sum = bucketSurplus bs := by
  induction bs with
  | nil => simp [promptTargets, bucketSurplus]
  | cons b rest ih =>
    have ih' := ih (fun b hb => hsize b (List.mem_cons_of_mem _ hb))
      (fun b hb => hsame b (List.mem_cons_of_mem _ hb))
    have hb : ((groupTails (visitedGroups env b)).map (getFileSize env)).sum =
        ((b.2.length - 1 : Nat) : Int) * b.1 := by
      unfold visitedGroups
      by_cases hl : b.2.length > 1
      · simp only [hl, if_true]
        obtain ⟨d, hd⟩ := hsame b (List.mem_cons_self _ _)
        cases hb2 : b.2 with
        | nil => simp [hb2] at hl
        | cons f more =>
          rw [hb2] at hd
          rw [groupsOf_same env d f more hd]
          have := List.perm_singleton.1 (hf.2 b.1 [(d, f :: more)])
          rw [this]
          simp only [groupTails, List.map_cons, List.map_nil, List.flatten_cons,
            List.flatten_nil, List.append_nil, List.tail_cons, List.length_cons,
            Nat.add_sub_cancel]
          apply sum_sizes_const
          intro p hp
          exact hsize b (List.mem_cons_self _ _) p (by rw [hb2]; exact List.mem_cons_of_mem _ hp)
      · have : b.2.length - 1 = 0 := by omega
        simp [hl, groupTails, this]
    unfold promptTargets bucketSurplus at *
    simp only [List.map_cons, List.flatten_cons, List.map_append, List.sum_append,
      List.sum_cons, hb, ih']

/-- C7 (amended): for every size map in which `getFileSize` of a path equals its bucket key, the
figure returned by `calculatePotentialSpaceSaved` is, in `int64` arithmetic, the sum over the
size buckets of the key times the number of files of the bucket but one.  When every prompt is
answered `y`, no hashing or removal fails and the files of each size bucket all have the same
digest, this is the sum of the sizes of the files `deleteDuplicates` removes. -/
theorem C7_potential_space_saved (env : Env) (hf : env.Fair) (sizeMap : SizeMap)
    (hsize : ∀ b ∈ sizeMap, ∀ p ∈ b.2, getFileSize env p = b.1) :
    calculatePotentialSpaceSaved env sizeMap = wrap64 (bucketSurplus sizeMap) ∧
      ∀ stdin, AllAnswered "y" (deleteDuplicates env sizeMap stdin).1 →
        (∀ p, env.osRemove p = none) →
        (∀ b ∈ sizeMap, ∃ d, ∀ p ∈ b.2, getFileHash env p = .ok d) →
        calculatePotentialSpaceSaved env sizeMap =
          wrap64 (removedBytes env (deleteDuplicates env sizeMap stdin).1) := by
  have hfig : calculatePotentialSpaceSaved env sizeMap = wrap64 (bucketSurplus sizeMap) := by
    unfold calculatePotentialSpaceSaved
    have h0 : (0 : Int) = wrap64 0 := by
      unfold wrap64
      norm_num
    have hperm := hf.1 Site.saved sizeMap
    rw [h0, savedLoop_eq env _ (fun b hb => hsize b (hperm.mem_iff.1 hb)) 0]
    congr 1
    simp only [zero_add, bucketSurplus]
    exact (hperm.map _).sum_eq
  refine ⟨hfig, ?_⟩
  intro stdin hyes hrm hsame
  rw [hfig]
  congr 1
  have hperm := hf.1 Site.delete sizeMap
  have ht := bucketsLoop_trace env (env.rangeSize Site.delete sizeMap) stdin
  have hlist : removedFiles (deleteDuplicates env sizeMap stdin).1 =
      promptTargets env (env.rangeSize Site.delete sizeMap) := by
    have hy := yesFiles_of_allAnswered _ hyes
    unfold deleteDuplicates at hy ⊢
    rw [ht.2.2.2.2, ht.2.2.2.1, hy, ht.1]
    simp [hrm]
  unfold removedBytes
  rw [hlist, promptTargets_bytes env hf _ (fun b hb => hsize b (hperm.mem_iff.1 hb))
    (fun b hb => hsame b (hperm.mem_iff.1 hb))]
  simp only [bucketSurplus]
  exact ((hperm.map _).sum_eq).symm

/-- C7, an instance: the example directory `w`, where the two files of size 10 are identical. -/
theorem C7_potential_space_saved_witness :
    (∀ b ∈ scan (exWalk "w"), ∀ p ∈ b.2, getFileSize exEnv p = b.1) ∧
      calculatePotentialSpaceSaved exEnv (scan (exWalk "w")) = 10 ∧
      removedBytes exEnv (deleteDuplicates exEnv (scan (exWalk "w")) ["y"]).1 = 10 ∧
      calculatePotentialSpaceSaved exEnv (scan (exWalk "w")) =
        wrap64 (bucketSurplus (scan (exWalk "w"))) :=
  ⟨by decide, by decide, by decide,
    (C7_potential_space_saved exEnv exEnv_fair (scan (exWalk "w")) (by decide)).1⟩

/-- C7 as stated fails on the example directory `v`: of its three files of size 10 one has its own
digest, so the figure is 20 while, every prompt answered `y` and nothing failing, the only file
removed is `v/b.MP4`, of size 10. -/
theorem C7_counterexample :
    scan (exWalk "v") = [(10, ["v/a.mp4", "v/b.MP4", "v/d.mp4"]), (20, ["v/e.mp4"])] ∧
      (∀ b ∈ scan (exWalk "v"), ∀ p ∈ b.2, getFileSize exEnv p = b.1) ∧
      calculatePotentialSpaceSaved exEnv (scan (exWalk "v")) = 20 ∧
      (deleteDuplicates exEnv (scan (exWalk "v")) ["y", "y"]).1 =
        [Event.processing 10, Event.hash "v/a.mp4" (.ok "01"), Event.hash "v/b.MP4" (.ok "01"),
          Event.hash "v/d.mp4" (.ok "02"), Event.dupHeader "01", Event.keeping "v/a.mp4",
          Event.askDelete "v/b.MP4" "y", Event.remove "v/b.MP4" none,
          Event.deleted "v/b.MP4"] ∧
      removedBytes exEnv (deleteDuplicates exEnv (scan (exWalk "v")) ["y", "y"]).1 = 10 := by
  decide

/-! ## Runs in a world that removals change -/

theorem deleteLoopIn_const (env : Env) (i : Nat) (dups stdin gone : List String) :
    (deleteLoopIn (fun _ => env) i dups stdin gone).1 = (deleteLoop env i dups stdin).1 ∧
      (deleteLoopIn (fun _ => env) i dups stdin gone).2.1 = (deleteLoop env i dups stdin).2 := by
  induction dups generalizing i stdin gone with
  | nil => simp [deleteLoopIn, deleteLoop]
  | cons f rest ih =>
    unfold deleteLoopIn deleteLoop
    by_cases hi : i = 0
    · simp [hi, ih]
    · simp only [hi, if_false]
      by_cases hy : (scanln stdin).1 = "y" ∨ (scanln stdin).1 = "Y"
      · simp only [hy, if_true]
        cases hr : env.osRemove f <;> simp [ih]
      · simp [hy, ih]

theorem groupsLoopIn_const (env : Env) (gs : List (String × List String))
    (stdin gone : List String) :
    (groupsLoopIn (fun _ => env) gs stdin gone).1 = (groupsLoop env gs stdin).1 ∧
      (groupsLoopIn (fun _ => env) gs stdin gone).2.1 = (groupsLoop env gs stdin).2 := by
  induction gs generalizing stdin gone with
  | nil => simp [groupsLoopIn, groupsLoop]
  | cons g rest ih =>
    obtain ⟨h, dups⟩ := g
    unfold groupsLoopIn groupsLoop
    by_cases hl : dups.length > 1
    · have hd := deleteLoopIn_const env 0 dups stdin gone
      simp only [hl, if_true, hd.1, hd.2, ih, and_self]
    · simp only [hl, if_false, ih, and_self]

theorem bucketsLoopIn_const (env : Env) (bs : List (Int × List String))
    (stdin gone : List String) :
    (bucketsLoopIn (fun _ => env) bs stdin gone).1 = (bucketsLoop env bs stdin).1 ∧
      (bucketsLoopIn (fun _ => env) bs stdin gone).2.1 = (bucketsLoop env bs stdin).2 := by
  induction bs generalizing stdin gone with
  | nil => simp [bucketsLoopIn, bucketsLoop]
  | cons b rest ih =>
    obtain ⟨size, files⟩ := b
    unfold bucketsLoopIn bucketsLoop
    by_cases hl : files.length > 1
    · have hg := groupsLoopIn_const env (env.rangeHash size (hashFiles env files []).2) stdin gone
      simp only [hl, if_true, hg.1, hg.2, ih, and_self]
    · simp only [hl, if_false, ih, and_self]

/-- In a world that removals do not change the two runs of `deleteDuplicates` are the same. -/
theorem deleteDuplicatesIn_const (env : Env) (sizeMap : SizeMap) (stdin : List String) :
    (deleteDuplicatesIn (fun _ => env) sizeMap stdin).1 = (deleteDuplicates env sizeMap stdin).1 ∧
      (deleteDuplicatesIn (fun _ => env) sizeMap stdin).2.1 =
        (deleteDuplicates env sizeMap stdin).2 :=
  bucketsLoopIn_const env _ stdin []

theorem deleteLoopIn_succ (w : World) (i : Nat) (dups stdin gone : List String) :
    askedFiles (deleteLoopIn w (i + 1) dups stdin gone).1 = dups ∧
      removeCalls (deleteLoopIn w (i + 1) dups stdin gone).1 =
        yesFiles (deleteLoopIn w (i + 1) dups stdin gone).1 ∧
      (∀ x ∈ (deleteLoopIn w (i + 1) dups stdin gone).2.2, x ∈ gone ∨ x ∈ dups) := by
  induction dups generalizing i stdin gone with
  | nil => simp [deleteLoopIn, askedFiles, removeCalls, yesFiles]
  | cons f rest ih =>
    unfold deleteLoopIn
    simp only [Nat.succ_ne_zero, if_false]
    by_cases hy : (scanln stdin).1 = "y" ∨ (scanln stdin).1 = "Y"
    · have hy' : isYes (scanln stdin).1 = true := by simp [isYes, hy]
      simp only [hy, if_true]
      cases hr : (w gone).osRemove f with
      | none =>
        have := ih (i + 1) (scanln stdin).2 (f :: gone)
        refine ⟨by simp [askedFiles, this.1], by simp [removeCalls, yesFiles, hy', this.2.1], ?_⟩
        intro x hx
        rcases this.2.2 x hx with h | h
        · rcases List.mem_cons.1 h with rfl | h
          · exact Or.inr (List.mem_cons_self _ _)
          · exact Or.inl h
        · exact Or.inr (List.mem_cons_of_mem _ h)
      | some err =>
        have := ih (i + 1) (scanln stdin).2 gone
        refine ⟨by simp [askedFiles, this.1], by simp [removeCalls, yesFiles, hy', this.2.1], ?_⟩
        intro x hx
        rcases this.2.2 x hx with h | h
        · exact Or.inl h
        · exact Or.inr (List.mem_cons_of_mem _ h)
    · have hy' : isYes (scanln stdin).1 = false := by simp [isYes, hy]
      simp only [hy, if_false]
      have := ih (i + 1) (scanln stdin).2 gone
      refine ⟨by simp [askedFiles, this.1], by simp [removeCalls, yesFiles, hy', this.2.1], ?_⟩
      intro x hx
      rcases this.2.2 x hx with h | h
      · exact Or.inl h
      · exact Or.inr (List.mem_cons_of_mem _ h)

theorem groupsLoopIn_trace (w : World) (gs : List (String × List String))
    (stdin gone : List String) :
    askedFiles (groupsLoopIn w gs stdin gone).1 = groupTails gs ∧
      removeCalls (groupsLoopIn w gs stdin gone).1 = yesFiles (groupsLoopIn w gs stdin gone).1 ∧
      (∀ x ∈ (groupsLoopIn w gs stdin gone).2.2, x ∈ gone ∨ x ∈ groupTails gs) := by
  induction gs generalizing stdin gone with
  | nil => simp [groupsLoopIn, askedFiles, removeCalls, yesFiles, groupTails]
  | cons g rest ih =>
    obtain ⟨h, dups⟩ := g
    unfold groupsLoopIn
    by_cases hl : dups.length > 1
    · simp only [hl, if_true]
      cases dups with
      | nil => simp at hl
      | cons f more =>
        have h1 := deleteLoopIn_succ w 0 more stdin gone
        simp only [Nat.zero_add] at h1
        have hz : deleteLoopIn w 0 (f :: more) stdin gone =
            (Event.keeping f :: (deleteLoopIn w 1 more stdin gone).1,
              (deleteLoopIn w 1 more stdin gone).2) := by
          simp [deleteLoopIn]
        rw [hz]
        have h2 := ih (deleteLoopIn w 1 more stdin gone).2.1 (deleteLoopIn w 1 more stdin gone).2.2
        refine ⟨?_, ?_, ?_⟩
        · simp [askedFiles, askedFiles_append, h1.1, h2.1, groupTails]
        · simp [removeCalls, yesFiles, removeCalls_append, yesFiles_append, h1.2.1, h2.2.1]
        · intro x hx
          rcases h2.2.2 x hx with h | h
          · rcases h1.2.2 x h with h | h
            · exact Or.inl h
            · exact Or.inr (by simp [groupTails, h])
          · right
            simp only [groupTails, List.map_cons, List.flatten_cons, List.mem_append] at h ⊢
            exact Or.inr h
    · simp only [hl, if_false]
      have h2 := ih stdin gone
      have ht : dups.tail = [] := by
        cases dups with
        | nil => rfl
        | cons f more =>
          cases more with
          | nil => rfl
          | cons _ _ => simp at hl
      refine ⟨by simp [h2.1, groupTails, ht], h2.2.1, ?_⟩
      intro x hx
      rcases h2.2.2 x hx with h | h
      · exact Or.inl h
      · right
        simp only [groupTails, List.map_cons, List.flatten_cons, List.mem_append] at h ⊢
        exact Or.inr h

theorem hashFiles_congr_on (env env' : Env) (files : List String)
    (h : ∀ p ∈ files, getFileHash env' p = getFileHash env p) (m : HashMap) :
    hashFiles env' files m = hashFiles env files m := by
  induction files generalizing m with
  | nil => simp [hashFiles]
  | cons f rest ih =>
    unfold hashFiles
    rw [h f (List.mem_cons_self _ _)]
    have ih' := ih (fun p hp => h p (List.mem_cons_of_mem _ hp))
    cases hf : getFileHash env f <;> simp [ih']

theorem mem_groupTails_visited (env : Env) (hf : env.Fair) (b : Int × List String) (p : String)
    (hp : p ∈ groupTails (visitedGroups env b)) : p ∈ b.2 := by
  simp only [groupTails, List.mem_flatten, List.mem_map] at hp
  obtain ⟨l, ⟨g, hg, rfl⟩, hp⟩ := hp
  exact group_subset_bucket env b.2 g ((mem_visitedGroups env hf b g).1 hg).2 p
    (List.mem_of_mem_tail hp)

theorem bucketsLoopIn_gated (w : World) (bs : List (Int × List String))
    (stdin gone : List String) :
    removeCalls (bucketsLoopIn w bs stdin gone).1 = yesFiles (bucketsLoopIn w bs stdin gone).1 := by
  induction bs generalizing stdin gone with
  | nil => simp [bucketsLoopIn, removeCalls, yesFiles]
  | cons b rest ih =>
    obtain ⟨size, files⟩ := b
    unfold bucketsLoopIn
    by_cases hl : files.length > 1
    · simp only [hl, if_true]
      have hgt := hashFiles_gated (w gone) files []
      have hg := groupsLoopIn_trace w ((w gone).rangeHash size (hashFiles (w gone) files []).2)
        stdin gone
      unfold Gated at hgt
      simp [removeCalls, yesFiles, removeCalls_append, yesFiles_append, hgt.1, hg.2.1, ih]
    · simp only [hl, if_false]
      exact ih stdin gone

theorem bucketsLoopIn_trace (w : World) (hf : ∀ gone, (w gone).Fair)
    (bs : List (Int × List String)) (stdin gone : List String) :
    (∀ p, List.count p (askedFiles (bucketsLoopIn w bs stdin gone).1) ≤
        List.count p (bs.map Prod.snd).flatten) ∧
      ∀ paths, w.HashStableOn paths → (∀ b ∈ bs, ∀ p ∈ b.2, p ∈ paths ∧ p ∉ gone) →
        (bs.map Prod.snd).flatten.Nodup →
        ∀ p, p ∈ askedFiles (bucketsLoopIn w bs stdin gone).1 ↔
          ∃ b ∈ bs, b.2.length > 1 ∧ ∃ g ∈ groupsOf (w []) b.2, p ∈ g.2.tail := by
  induction bs generalizing stdin gone with
  | nil => simp [bucketsLoopIn, askedFiles]
  | cons b rest ih =>
    obtain ⟨size, files⟩ := b
    unfold bucketsLoopIn
    by_cases hl : files.length > 1
    · simp only [hl, if_true]
      have hq := hashFiles_quiet (w gone) files []
      have hg := groupsLoopIn_trace w ((w gone).rangeHash size (hashFiles (w gone) files []).2)
        stdin gone
      have hvis : visitedGroups (w gone) (size, files) =
          (w gone).rangeHash size (hashFiles (w gone) files []).2 := by
        simp [visitedGroups, hl, groupsOf]
      rw [← hvis] at hg ⊢
      generalize hres : groupsLoopIn w (visitedGroups (w gone) (size, files)) stdin gone = res
        at hg ⊢
      have hr := ih res.2.1 res.2.2
      have hasked : askedFiles (Event.processing size :: (hashFiles (w gone) files []).1 ++
          res.1 ++ (bucketsLoopIn w rest res.2.1 res.2.2).1) =
          groupTails (visitedGroups (w gone) (size, files)) ++
            askedFiles (bucketsLoopIn w rest res.2.1 res.2.2).1 := by
        simp [askedFiles, askedFiles_append, hq, hg.1]
      refine ⟨?_, ?_⟩
      · intro p
        rw [hasked]
        have h1 := count_visitedGroups (w gone) (hf gone) p (size, files)
        have h2 := hr.1 p
        simp only [List.count_append, List.map_cons, List.flatten_cons] at h1 ⊢
        omega
      · intro paths hs hin hnd p
        simp only [List.map_cons, List.flatten_cons] at hnd
        have hnd' := List.nodup_append.1 hnd
        have hgroups : groupsOf (w gone) files = groupsOf (w []) files := by
          unfold groupsOf
          rw [hashFiles_congr_on (w []) (w gone) files (fun q hq =>
            hs gone q (hin (size, files) (List.mem_cons_self _ _) q hq).1
              (hin (size, files) (List.mem_cons_self _ _) q hq).2)]
        have hin' : ∀ b ∈ rest, ∀ q ∈ b.2, q ∈ paths ∧ q ∉ res.2.2 := by
          intro b hb q hq
          have h0 := hin b (List.mem_cons_of_mem _ hb) q hq
          refine ⟨h0.1, ?_⟩
          intro hgone
          rcases hg.2.2 q hgone with h | h
          · exact h0.2 h
          · have hqf : q ∈ files :=
              mem_groupTails_visited (w gone) (hf gone) (size, files) q h
            have hqr : q ∈ (rest.map Prod.snd).flatten := by
              simp only [List.mem_flatten, List.mem_map]
              exact ⟨_, ⟨b, hb, rfl⟩, hq⟩
            exact hnd'.2.2 hqf hqr
        rw [hasked, List.mem_append, (hr.2 paths hs hin' hnd'.2.1) p]
        simp only [groupTails, List.mem_flatten, List.mem_map, List.mem_cons]
        constructor
        · rintro (⟨l, ⟨g, hg', rfl⟩, hp⟩ | ⟨b, hb, hbl, g, hg', hp⟩)
          · have := (mem_visitedGroups (w gone) (hf gone) (size, files) g).1 hg'
            rw [hgroups] at this
            exact ⟨(size, files), Or.inl rfl, hl, g, this.2, hp⟩
          · exact ⟨b, Or.inr hb, hbl, g, hg', hp⟩
        · rintro ⟨b, (rfl | hb), hbl, g, hg', hp⟩
          · left
            refine ⟨_, ⟨g, ?_, rfl⟩, hp⟩
            rw [mem_visitedGroups (w gone) (hf gone), hgroups]
            exact ⟨hl, hg'⟩
          · exact Or.inr ⟨b, hb, hbl, g, hg', hp⟩
    · simp only [hl, if_false]
      have hr := ih stdin gone
      refine ⟨?_, ?_⟩
      · intro p
        have := hr.1 p
        simp only [List.map_cons, List.flatten_cons, List.count_append]
        omega
      · intro paths hs hin hnd p
        simp only [List.map_cons, List.flatten_cons] at hnd
        rw [(hr.2 paths hs (fun b hb => hin b (List.mem_cons_of_mem _ hb))
          (List.nodup_append.1 hnd).2.1) p]
        constructor
        · rintro ⟨b, hb, h⟩
          exact ⟨b, List.mem_cons_of_mem _ hb, h⟩
        · rintro ⟨b, hb, hbl, h⟩
          rcases List.mem_cons.1 hb with rfl | hb
          · exact absurd hbl hl
          · exact ⟨b, hb, hbl, h⟩

theorem exDisk_fair (reversed : Bool) (gone : List String) : (exDisk reversed gone).Fair := by
  cases reversed
  · exact ⟨fun _ m => List.Perm.refl m, fun _ m => List.Perm.refl m⟩
  · exact ⟨fun _ m => List.reverse_perm m, fun _ m => List.reverse_perm m⟩

/-- C10 (amended): for every size map in which no path occurs twice, when every per-file prompt
is answered `y`, no removal fails and no removal changes the outcome of a later hashing (for a
scanned path that has not been removed `getFileHash` returns the same result whatever else has
been removed), two runs of `deleteDuplicates` on the same files that visit the size buckets and
the hash groups in any two orders remove the same set of paths, and each removed path is passed
to `os.Remove` exactly once. -/
theorem C10_removed_set_independent_of_order (w w' : World)
    (hf : ∀ gone, (w gone).Fair) (hf' : ∀ gone, (w' gone).Fair)
    (sizeMap : SizeMap) (hn : (allPaths sizeMap).Nodup)
    (hs : w.HashStableOn (allPaths sizeMap)) (hs' : w'.HashStableOn (allPaths sizeMap))
    (hsame : ∀ p ∈ allPaths sizeMap, getFileHash (w' []) p = getFileHash (w []) p)
    (stdin stdin' : List String)
    (hyes : AllAnswered "y" (deleteDuplicatesIn w sizeMap stdin).1)
    (hyes' : AllAnswered "y" (deleteDuplicatesIn w' sizeMap stdin').1)
    (hok : NoRemovalFails (deleteDuplicatesIn w sizeMap stdin).1)
    (hok' : NoRemovalFails (deleteDuplicatesIn w' sizeMap stdin').1) :
    (∀ p, p ∈ removedFiles (deleteDuplicatesIn w sizeMap stdin).1 ↔
        p ∈ removedFiles (deleteDuplicatesIn w' sizeMap stdin').1) ∧
      (∀ p ∈ removedFiles (deleteDuplicatesIn w sizeMap stdin).1,
        List.count p (removeCalls (deleteDuplicatesIn w sizeMap stdin).1) = 1) ∧
      (∀ p ∈ removedFiles (deleteDuplicatesIn w' sizeMap stdin').1,
        List.count p (removeCalls (deleteDuplicatesIn w' sizeMap stdin').1) = 1) := by
  have hlist : ∀ (v : World) (inp : List String),
      AllAnswered "y" (deleteDuplicatesIn v sizeMap inp).1 →
      NoRemovalFails (deleteDuplicatesIn v sizeMap inp).1 →
      removedFiles (deleteDuplicatesIn v sizeMap inp).1 =
          askedFiles (deleteDuplicatesIn v sizeMap inp).1 ∧
        removeCalls (deleteDuplicatesIn v sizeMap inp).1 =
          askedFiles (deleteDuplicatesIn v sizeMap inp).1 := by
    intro v inp hy hk
    have hy' := yesFiles_of_allAnswered _ hy
    have hg : removeCalls (deleteDuplicatesIn v sizeMap inp).1 =
        yesFiles (deleteDuplicatesIn v sizeMap inp).1 := bucketsLoopIn_gated v _ inp []
    unfold NoRemovalFails at hk
    rw [hk, hg, hy']
    exact ⟨rfl, rfl⟩
  have hmem : ∀ (v : World), (∀ gone, (v gone).Fair) → v.HashStableOn (allPaths sizeMap) →
      ∀ (inp : List String), AllAnswered "y" (deleteDuplicatesIn v sizeMap inp).1 →
      NoRemovalFails (deleteDuplicatesIn v sizeMap inp).1 → ∀ p,
      (p ∈ removedFiles (deleteDuplicatesIn v sizeMap inp).1 ↔
        ∃ b ∈ sizeMap, b.2.length > 1 ∧ ∃ g ∈ groupsOf (v []) b.2, p ∈ g.2.tail) := by
    intro v hvf hvs inp hy hk p
    rw [(hlist v inp hy hk).1]
    have hperm := (hvf []).1 Site.delete sizeMap
    have hin : ∀ b ∈ (v []).rangeSize Site.delete sizeMap, ∀ q ∈ b.2,
        q ∈ allPaths sizeMap ∧ q ∉ ([] : List String) := by
      intro b hb q hq
      exact ⟨(mem_allPaths sizeMap q).2 ⟨b, hperm.mem_iff.1 hb, hq⟩, by simp⟩
    have hnd : (((v []).rangeSize Site.delete sizeMap).map Prod.snd).flatten.Nodup :=
      (((hperm.map Prod.snd).flatten).nodup_iff).2 hn
    unfold deleteDuplicatesIn
    rw [((bucketsLoopIn_trace v hvf _ inp []).2 (allPaths sizeMap) hvs hin hnd) p]
    constructor
    · rintro ⟨b, hb, h⟩
      exact ⟨b, hperm.mem_iff.1 hb, h⟩
    · rintro ⟨b, hb, h⟩
      exact ⟨b, hperm.mem_iff.2 hb, h⟩
  have once : ∀ (v : World), (∀ gone, (v gone).Fair) →
      ∀ (inp : List String), AllAnswered "y" (deleteDuplicatesIn v sizeMap inp).1 →
      NoRemovalFails (deleteDuplicatesIn v sizeMap inp).1 →
      ∀ p ∈ removedFiles (deleteDuplicatesIn v sizeMap inp).1,
        List.count p (removeCalls (deleteDuplicatesIn v sizeMap inp).1) = 1 := by
    intro v hvf inp hy hk p hp
    have hl := hlist v inp hy hk
    rw [hl.1] at hp
    rw [hl.2]
    have hpos := List.count_pos_iff.2 hp
    have hle : List.count p (askedFiles (deleteDuplicatesIn v sizeMap inp).1) ≤
        List.count p (((v []).rangeSize Site.delete sizeMap).map Prod.snd).flatten := by
      unfold deleteDuplicatesIn
      exact (bucketsLoopIn_trace v hvf _ inp []).1 p
    have h2 : List.count p (((v []).rangeSize Site.delete sizeMap).map Prod.snd).flatten =
        List.count p (allPaths sizeMap) :=
      ((((hvf []).1 Site.delete sizeMap).map Prod.snd).flatten).count_eq p
    have h3 := List.nodup_iff_count_le_one.1 hn p
    omega
  refine ⟨?_, once w hf stdin hyes hok, once w' hf' stdin' hyes' hok'⟩
  intro p
  rw [hmem w hf hs stdin hyes hok p, hmem w' hf' hs' stdin' hyes' hok' p]
  have hgroups : ∀ b ∈ sizeMap, groupsOf (w' []) b.2 = groupsOf (w []) b.2 := by
    intro b hb
    unfold groupsOf
    rw [hashFiles_congr_on (w []) (w' []) b.2
      (fun q hq => hsame q ((mem_allPaths sizeMap q).2 ⟨b, hb, hq⟩))]
  constructor
  · rintro ⟨b, hb, hl, g, hg, hp⟩
    exact ⟨b, hb, hl, g, (hgroups b hb) ▸ hg, hp⟩
  · rintro ⟨b, hb, hl, g, hg, hp⟩
    exact ⟨b, hb, hl, g, (hgroups b hb).symm ▸ hg, hp⟩

theorem exDisk_stable (reversed : Bool) :
    (exDisk reversed).HashStableOn ["d/copy.mp4", "d/data.mp4", "d/x.mp4", "d/y.mp4"] := by
  intro gone p hp hg
  simp only [List.mem_cons, List.mem_singleton, List.not_mem_nil, or_false] at hp
  rcases hp with rfl | rfl | rfl | rfl <;> simp [getFileHash, exDisk, hg]

/-- C10, an instance: two buckets of two identical files in the directory `d`, where a removed
file can no longer be opened, visited in the order of the entries and in the reverse order; the
calls of `os.Remove` come in different orders and remove the same paths. -/
theorem C10_removed_set_independent_of_order_witness :
    (allPaths exSizeMap3).Nodup ∧
      AllAnswered "y" (deleteDuplicatesIn (exDisk false) exSizeMap3 ["y", "y"]).1 ∧
      AllAnswered "y" (deleteDuplicatesIn (exDisk true) exSizeMap3 ["y", "y"]).1 ∧
      NoRemovalFails (deleteDuplicatesIn (exDisk false) exSizeMap3 ["y", "y"]).1 ∧
      NoRemovalFails (deleteDuplicatesIn (exDisk true) exSizeMap3 ["y", "y"]).1 ∧
      removeCalls (deleteDuplicatesIn (exDisk false) exSizeMap3 ["y", "y"]).1 =
        ["d/data.mp4", "d/y.mp4"] ∧
      removeCalls (deleteDuplicatesIn (exDisk true) exSizeMap3 ["y", "y"]).1 =
        ["d/y.mp4", "d/data.mp4"] ∧
      ∀ p, p ∈ removedFiles (deleteDuplicatesIn (exDisk false) exSizeMap3 ["y", "y"]).1 ↔
        p ∈ removedFiles (deleteDuplicatesIn (exDisk true) exSizeMap3 ["y", "y"]).1 :=
  ⟨by decide, by unfold AllAnswered; decide, by unfold AllAnswered; decide,
    by unfold NoRemovalFails; decide, by unfold NoRemovalFails; decide, by decide, by decide,
    (C10_removed_set_independent_of_order (exDisk false) (exDisk true) (exDisk_fair false)
      (exDisk_fair true) exSizeMap3 (by decide) (exDisk_stable false) (exDisk_stable true)
      (fun _ _ => rfl) ["y", "y"] ["y", "y"] (by unfold AllAnswered; decide)
      (by unfold AllAnswered; decide) (by unfold NoRemovalFails; decide)
      (by unfold NoRemovalFails; decide)).1⟩

/-- C10 as stated fails in the directory `d`, where `l1.mp4` and `l2.mp4` are symbolic links to
`data.mp4`: no path occurs twice in the size map, every prompt is answered `y` and no removal
fails.  When the bucket of size 20 is visited first, `data.mp4` is removed and the links can no
longer be hashed, so nothing else is removed; when the bucket of size 8 is visited first,
`l2.mp4` is removed and then `data.mp4`. -/
theorem C10_counterexample :
    scan exDiskWalk =
        [(20, ["d/copy.mp4", "d/data.mp4"]), (8, ["d/l1.mp4", "d/l2.mp4"])] ∧
      (allPaths (scan exDiskWalk)).Nodup ∧
      getFileHash (exDisk false []) "d/l1.mp4" = .ok "01" ∧
      getFileHash (exDisk false ["d/data.mp4"]) "d/l1.mp4" =
        .error "no such file or directory" ∧
      AllAnswered "y" (deleteDuplicatesIn (exDisk false) (scan exDiskWalk) ["y", "y"]).1 ∧
      AllAnswered "y" (deleteDuplicatesIn (exDisk true) (scan exDiskWalk) ["y", "y"]).1 ∧
      NoRemovalFails (deleteDuplicatesIn (exDisk false) (scan exDiskWalk) ["y", "y"]).1 ∧
      NoRemovalFails (deleteDuplicatesIn (exDisk true) (scan exDiskWalk) ["y", "y"]).1 ∧
      removedFiles (deleteDuplicatesIn (exDisk false) (scan exDiskWalk) ["y", "y"]).1 =
        ["d/data.mp4"] ∧
      removedFiles (deleteDuplicatesIn (exDisk true) (scan exDiskWalk) ["y", "y"]).1 =
        ["d/l2.mp4", "d/data.mp4"] ∧
      (deleteDuplicatesIn (exDisk false) (scan exDiskWalk) ["y", "y"]).1 =
        [Event.processing 20, Event.hash "d/copy.mp4" (.ok "01"),
          Event.hash "d/data.mp4" (.ok "01"), Event.dupHeader "01",
          Event.keeping "d/copy.mp4", Event.askDelete "d/data.mp4" "y",
          Event.remove "d/data.mp4" none, Event.deleted "d/data.mp4", Event.processing 8,
          Event.hash "d/l1.mp4" (.error "no such file or directory"),
          Event.errHash "d/l1.mp4" "no such file or directory",
          Event.hash "d/l2.mp4" (.error "no such file or directory"),
          Event.errHash "d/l2.mp4" "no such file or directory"] ∧
      (deleteDuplicatesIn (exDisk true) (scan exDiskWalk) ["y", "y"]).1 =
        [Event.processing 8, Event.hash "d/l1.mp4" (.ok "01"),
          Event.hash "d/l2.mp4" (.ok "01"), Event.dupHeader "01", Event.keeping "d/l1.mp4",
          Event.askDelete "d/l2.mp4" "y", Event.remove "d/l2.mp4" none,
          Event.deleted "d/l2.mp4", Event.processing 20,
          Event.hash "d/copy.mp4" (.ok "01"), Event.hash "d/data.mp4" (.ok "01"),
          Event.dupHeader "01", Event.keeping "d/copy.mp4",
          Event.askDelete "d/data.mp4" "y", Event.remove "d/data.mp4" none,
          Event.deleted "d/data.mp4"] := by
  refine ⟨by decide, by decide, by decide, by decide, by unfold AllAnswered; decide,
    by unfold AllAnswered; decide, by unfold NoRemovalFails; decide,
    by unfold NoRemovalFails; decide, by decide, by decide, by decide, by decide⟩

end FileCleaner
